import Mathlib

/-!
Verification of the carefree-data tabular utilities against their
natural-language specification.

The development shallowly embeds the relevant parts of
src/cfdata/tabular/utils.py (class DataSplitter) and
src/cfdata/tabular/processors/base.py (class Processor) as executable
Lean definitions over lists.  NumPy arrays of row indices are modelled
as `List Nat`, NumPy integer arrays of counts as `List Int`, and the
float ratios computed at reset time as exact rationals.  NumPy slicing
(including its peculiar treatment of `a[-0:]`) is reproduced exactly by
the helpers below.  Calls to `np.random.shuffle` are modelled by
explicit permutation parameters: each theorem quantifies over the
shuffled value, constrained by a `List.Perm` hypothesis.
-/

/-! ### NumPy slicing and rounding helpers -/

/-- Python slice `a[-k:]` applied to a list, for an arbitrary integer `k`
as NumPy evaluates it: for `k > 0` the last `min k (length a)` elements,
for `k = 0` the whole list (since `a[-0:] = a[0:]`), and for `k < 0` the
suffix starting at the nonnegative position `-k`. -/
def npTail (l : List α) (k : ℤ) : List α :=
  if 0 < k then l.drop (l.length - k.toNat)
  else if k = 0 then l
  else l.drop (-k).toNat

/-- Python slice `a[:k]` for an arbitrary integer `k`: for `k ≥ 0` the
first `min k (length a)` elements, for `k < 0` all but the last `-k`. -/
def npTake (l : List α) (k : ℤ) : List α :=
  if 0 ≤ k then l.take k.toNat
  else l.take (l.length - (-k).toNat)

/-- Python slice `a[k:]` for an arbitrary integer `k`. -/
def npDrop (l : List α) (k : ℤ) : List α :=
  if 0 ≤ k then l.drop k.toNat
  else l.drop (l.length - (-k).toNat)

/-- Python `int(q)`: truncation of a rational towards zero. -/
def ratTrunc (q : ℚ) : ℤ :=
  if q < 0 then -Int.floor (-q) else Int.floor q

/-- NumPy `np.round`: round half to even. -/
def npRound (q : ℚ) : ℤ :=
  let f := Int.floor q
  let r := q - (f : ℚ)
  if r < 1/2 then f
  else if 1/2 < r then f + 1
  else if 2 ∣ f then f else f + 1

/-! ### Processor chain (src/cfdata/tabular/processors/base.py)

A `Processor`'s constructor receives the ordered list of processors that
precede it in the chain; it only ever reads their `input_dim` and
`output_dim`, so preceding processors are represented by their dimension
pairs.  `Proc.init` embeds `Processor.__init__` (lines 18-28),
`Proc.inputIndices` the `input_indices` property (lines 60-62) and
`Proc.outputIndices` the `output_indices` property (lines 64-67). -/

structure Proc where
  inputDim : ℕ
  outputDim : ℕ
  prevDims : List (ℕ × ℕ)
  colIndices : List ℕ
  deriving Repr, DecidableEq, Inhabited

/-- Embeds `Processor.__init__`: `start_idx = sum(p.input_dim for p in previous)`,
`_col_indices = [start_idx + i for i in range(self.input_dim)]`. -/
def Proc.init (previous : List (ℕ × ℕ)) (inDim outDim : ℕ) : Proc :=
  let startIdx := (previous.map Prod.fst).sum
  ⟨inDim, outDim, previous, (List.range inDim).map (fun i => startIdx + i)⟩

/-- Embeds `Processor.input_indices`: returns the stored `_col_indices`. -/
def Proc.inputIndices (p : Proc) : List ℕ := p.colIndices

/-- Embeds `Processor.output_indices`: recomputes the offset from the preceding
processors' output dimensions. -/
def Proc.outputIndices (p : Proc) : List ℕ :=
  let previousDimensions := (p.prevDims.map Prod.snd).sum
  (List.range p.outputDim).map (fun i => previousDimensions + i)

/-- A chain of processors built from a list of (input_dim, output_dim)
declarations, each processor constructed with the ordered list of all
processors preceding it, exactly as the orchestrator threads them. -/
def mkChain (dims : List (ℕ × ℕ)) : List Proc :=
  (List.range dims.length).map
    (fun i => Proc.init (dims.take i) (dims.getD i (0, 0)).1 (dims.getD i (0, 0)).2)

/-! ### Copy-on-write processing (Processor.process / Processor.recover)

`Processor.process` (base.py lines 84-88) copies its argument whenever
the processor was constructed with `inplace=False` and then hands the
buffer to the abstract `_process`, which may mutate it in place.
`Processor.recover` (lines 90-96) does the same with a per-call
`inplace` argument.  Buffers live in a store of integer arrays; the
abstract `_process`/`_recover` body is a parameter `fMut` describing the
in-place mutation it applies to the buffer it receives. -/

structure Store where
  bufs : List (List ℤ)
  deriving Repr, DecidableEq

/-- Allocate a fresh buffer holding `v` (models `columns.copy()`). -/
def Store.allocBuf (s : Store) (v : List ℤ) : Store × ℕ :=
  (⟨s.bufs ++ [v]⟩, s.bufs.length)

/-- Read the buffer behind reference `r`. -/
def Store.readBuf (s : Store) (r : ℕ) : List ℤ :=
  s.bufs.getD r []

/-- Overwrite the buffer behind reference `r`. -/
def Store.writeBuf (s : Store) (r : ℕ) (v : List ℤ) : Store :=
  ⟨s.bufs.set r v⟩

/-- Embeds `Processor.process`: `if not self._inplace: columns = columns.copy();
return self._process(columns)`.  Returns the store after the call and
the reference holding the processed block. -/
def processM (inplace : Bool) (fMut : List ℤ → List ℤ) (s : Store) (r : ℕ) : Store × ℕ :=
  let (s1, r1) := if inplace then (s, r) else s.allocBuf (s.readBuf r)
  (s1.writeBuf r1 (fMut (s1.readBuf r1)), r1)

/-- Embeds `Processor.recover`: identical shape, with `inplace` a per-call
keyword argument defaulting to `False`. -/
def recoverM (inplace : Bool) (fMut : List ℤ → List ℤ) (s : Store) (r : ℕ) : Store × ℕ :=
  let (s1, r1) := if inplace then (s, r) else s.allocBuf (s.readBuf r)
  (s1.writeBuf r1 (fMut (s1.readBuf r1)), r1)

/-! ### DataSplitter.split_multiple (utils.py lines 294-317)

`split_multiple` first rewrites its `n_list` into a list of absolute
counts (possibly appending an extra count) and then maps `split` over
it.  The count rewriting is embedded as `splitMultipleCounts`; Python's
`n_list[-1] = ...` on an empty list raises `IndexError`, modelled by
the `.indexFault` error. -/

inductive MultiErr where
  | mixedCounts    -- "some of the elements in n_list (but not all) are less than 1"
  | ratioSumAbove  -- "sum of n_list should not be greater than 1"
  | ratioSumOne    -- "sum of n_list should be less than 1 when return_remained is True"
  | indexFault     -- IndexError: n_list[-1] on an empty list
  deriving Repr, DecidableEq

/-- The `n_list` rewriting performed by `DataSplitter.split_multiple`
before it maps `self.split` over the list. -/
def splitMultipleCounts (nTotal : ℕ) (nList : List ℚ) (returnRemained : Bool) :
    Except MultiErr (List ℚ) :=
  if ¬ (∀ q ∈ nList, q ≤ 1) then
    if ∃ q ∈ nList, q < 1 then .error .mixedCounts
    else if returnRemained then .ok (nList ++ [(nTotal : ℚ) - nList.sum])
    else .ok nList
  else
    let ratioSum := nList.sum
    if 1 < ratioSum then .error .ratioSumAbove
    else if returnRemained ∧ ratioSum = 1 then .error .ratioSumOne
    else
      let nSelected := ratTrunc ((nTotal : ℚ) * ratioSum)
      match nList with
      | [] => .error .indexFault
      | _ :: _ =>
        let front := nList.dropLast.map (fun q => ((ratTrunc ((nTotal : ℚ) * q) : ℤ) : ℚ))
        let lastCount := ((nSelected : ℤ) : ℚ) - front.sum
        let counts := front ++ [lastCount]
        if ratioSum < 1 then .ok (counts ++ [(nTotal : ℚ) - ((nSelected : ℤ) : ℚ)])
        else .ok counts

/-! ### DataSplitter._split_reg (utils.py lines 147-154)

The regression pool is a flat list of row indices.  `np.random.shuffle`
in the `replace=True` branch is modelled by the `shuffled` parameter
(theorems constrain it to be a permutation of the pool). -/

/-- Embeds `_split_reg`: take the last `n` indices of the pool; with
`replace=True` reshuffle the pool in place, otherwise drop the last
`min n (len - 1)` indices (when positive). -/
def splitReg (rep : Bool) (shuffled : List ℕ) (pool : List ℕ) (n : ℤ) :
    List ℕ × List ℕ :=
  let tgt := npTail pool n
  let n1 := min n ((pool.length : ℤ) - 1)
  let pool1 := if rep then shuffled
    else if 0 < n1 then npTake pool (-n1) else pool
  (tgt, pool1)

/-! ### DataSplitter._split_clf (utils.py lines 156-204)

The per-label state is the list of per-label index pools
(`_label_indices_list_in_use`) plus the fixed label ratios computed at
reset time (`counts / n_samples`, modelled as exact rationals).
`np.random.shuffle(chosen_indices)` is modelled by the parameter
`sigma`, constrained in theorems to be a permutation of
`np.arange(n_unique)[n_samples_per_label != 1]`. -/

inductive ClfErr where
  | insufficientLabels   -- "at least {n} samples are required ..."
  | overflowFault        -- OverflowError: int(np.ceil(x / 0)) when no count differs from 1
  | assertCountsFault    -- assert n_samples_per_label.sum() == n
  | assertOverlapFault   -- assert np.sum(base >= 2) <= n_overlap
  deriving Repr, DecidableEq

/-- Embeds `n_samples_per_label = np.maximum(1, np.round(n * self._label_ratios))`. -/
def clfCounts0 (ratios : List ℚ) (n : ℤ) : List ℤ :=
  ratios.map (fun p => max 1 (npRound ((n : ℚ) * p)))

/-- Embeds `np.arange(self._n_unique_labels)[n_samples_per_label != 1]` (before
shuffling), with `n_unique_labels = len(ratios)`. -/
def clfChosenBase (ratios : List ℚ) (n : ℤ) : List ℕ :=
  (List.range ratios.length).filter (fun i => (clfCounts0 ratios n).getD i 0 ≠ 1)

/-- Embeds `counts[i] -= sign` for each listed index in order (NumPy fancy
in-place subtraction over a duplicate-free index array, and the explicit
Python loop over `chosen_indices[:...]`). -/
def applyDecs (sign : ℤ) (counts : List ℤ) (idxs : List ℕ) : List ℤ :=
  idxs.foldl (fun c i => c.set i (c.getD i 0 - sign)) counts

/-- The count-adjustment block of `_split_clf` (lines 163-178), starting
from the already rounded-and-floored counts: when their sum differs from
`n`, distribute the difference over the shuffled indices `sigma` of the
labels whose count is not 1, in `n_tile - 1` full rounds plus one
partial round.  When `sigma` is empty the Python code evaluates
`int(np.ceil(abs_exceeded / 0)) = int(inf)` and raises OverflowError. -/
def clfAdjust (counts0 : List ℤ) (sigma : List ℕ) (n : ℤ) : Except ClfErr (List ℤ) :=
  let exceeded := counts0.sum - n
  if exceeded = 0 then .ok counts0
  else
    let sign : ℤ := if 0 < exceeded then 1 else -1
    let ea := |exceeded|
    let nChosen : ℤ := (sigma.length : ℤ)
    if sigma.length = 0 then .error .overflowFault
    else
      let nTile := (ea + nChosen - 1) / nChosen
      let decs := (List.replicate (nTile - 1).toNat sigma).flatten
        ++ sigma.take (ea - (nTile - 1) * nChosen).toNat
      .ok (applyDecs sign counts0 decs)

/-- The full per-label count computation of `_split_clf`. -/
def clfCounts (ratios : List ℚ) (sigma : List ℕ) (n : ℤ) : Except ClfErr (List ℤ) :=
  clfAdjust (clfCounts0 ratios n) sigma n

/-- The bound on the per-label correction applied by the adjustment
loop of `_split_clf`: `n_tile = ceil(|sum - n| / n_chosen)` when the
rounded counts do not already sum to `n`, 0 otherwise. -/
def clfTile (counts0 : List ℤ) (sigma : List ℕ) (n : ℤ) : ℤ :=
  if counts0.sum - n = 0 then 0
  else (|counts0.sum - n| + (sigma.length : ℤ) - 1) / (sigma.length : ℤ)

/-- The drawing-and-popping part of `_split_clf` (lines 156-204).
Inputs: the unique-label count `nU` (`self._n_unique_labels`), the total
sample count `nSamples` (`self._n_samples`), the `replace` flag, the
reset-time label ratios, the shuffled chosen-index array `sigma`, the
reshuffled pools used by the `replace=True` branch, the current
per-label pools (`_label_indices_list_in_use`) and the requested size
`n`.  Returns the outcome (target indices and new `_remained_indices`,
or the error raised) together with the per-label pools at exit:
`raise`/crash sites before line 191 leave the pools untouched, while
the overlap assert at line 202 fires after the pools were reassigned. -/
def splitClf (nU : ℕ) (nSamples : ℕ) (rep : Bool) (ratios : List ℚ)
    (sigma : List ℕ) (poolsShuffled : List (List ℕ))
    (pools : List (List ℕ)) (n : ℤ) :
    Except ClfErr (List ℕ × List ℕ) × List (List ℕ) :=
  if n < (nU : ℤ) then (.error .insufficientLabels, pools)
  else
    match clfCounts ratios sigma n with
    | .error e => (.error e, pools)
    | .ok counts =>
      if counts.sum = n then
        let pairs := pools.zip counts
        let tgt := (pairs.map (fun pk => npTail pk.1 pk.2)).flatten
        if rep then (.ok (tgt, poolsShuffled.flatten), poolsShuffled)
        else
          let popped := pairs.map (fun pk =>
            if (pk.1.length : ℤ) - 1 ≤ pk.2 then pk.1
            else pk.1.take (pk.1.length - pk.2.toNat))
          let nOverlap := (pairs.filter
            (fun pk => decide ((pk.1.length : ℤ) - 1 ≤ pk.2))).foldl
            (fun a pk => a + pk.2) 0
          let remain := popped.flatten
          let overlapCount := ((List.range nSamples).filter
            (fun i => decide (i ∈ tgt) && decide (i ∈ remain))).length
          if (overlapCount : ℤ) ≤ nOverlap then (.ok (tgt, remain), popped)
          else (.error .assertOverlapFault, popped)
      else (.error .assertCountsFault, pools)

/-! ### DataSplitter._split_time_series (utils.py lines 122-135, 206-224)

State after `_reset_time_series`: `_time_indices_list_in_use` is the
list of per-unique-time index pools in reverse chronological order
(most recent time first) and `_times_counts_cumsum_in_use` the running
cumulative count over those pools.  The times themselves are recovered
through an ambient assignment `timeOf` from row index to time value,
constrained by the invariant `TSInv`. -/

structure TSState where
  groupsInUse : List (List ℕ)
  cumsumInUse : List ℤ
  deriving Repr, DecidableEq

/-- Running cumulative sums starting from `acc` (the in-use cumsum is
`cumFrom 0` of the group sizes). -/
def cumFrom (acc : ℤ) : List ℤ → List ℤ
  | [] => []
  | x :: xs => (acc + x) :: cumFrom (acc + x) xs

/-- Embeds `np.cumsum`. -/
def cumSums (l : List ℤ) : List ℤ := cumFrom 0 l

/-- Index of the first entry that is `≥ n` (helper for `npArgmaxGe`);
returns the length when no entry qualifies. -/
def findFirstGe (n : ℤ) : List ℤ → ℕ
  | [] => 0
  | c :: cs => if n ≤ c then 0 else findFirstGe n cs + 1

/-- Embeds `np.argmax(cumsum >= n)`: the first qualifying index, or 0 when no
entry qualifies (NumPy's argmax of an all-False array is 0). -/
def npArgmaxGe (n : ℤ) (l : List ℤ) : ℕ :=
  if l.any (fun c => n ≤ c) then findFirstGe n l else 0

/-- Embeds `_split_time_series(n)`: walk the cumulative counts to find how many
whole groups plus a partial group make up `n` rows, consume them from
the front of the group list, return the drawn indices reversed, and
shift the cumulative counts down by `n`.  `none` models the IndexError
Python would raise on an empty pool (unreachable after the `split`
guard). -/
def tsSplit (s : TSState) (n : ℤ) : Option (List ℕ × TSState) :=
  let k := npArgmaxGe n s.cumsumInUse
  match s.cumsumInUse[k]? with
  | none => none
  | some ck =>
    let nLeft := ck - n
    let step1 : Option (ℤ × List (List ℕ) × List (List ℕ) × List ℤ) :=
      if k = 0 then some (n, [], s.groupsInUse, s.cumsumInUse)
      else
        match s.cumsumInUse[k - 1]? with
        | none => none
        | some ckm =>
          some (n - ckm, s.groupsInUse.take k, s.groupsInUse.drop k, s.cumsumInUse.drop k)
    match step1 with
    | none => none
    | some (nRes, selected, gs, cs) =>
      match gs with
      | [] => none
      | g0 :: gtail =>
        let selected2 := selected ++ [npTake g0 nRes]
        let upd := if 0 < nLeft then (npDrop g0 nRes :: gtail, cs)
          else (gtail, cs.drop 1)
        some (selected2.flatten.reverse, ⟨upd.1, upd.2.map (fun c => c - n)⟩)

/-- Invariant tying a time-series splitter state to the ambient
row-to-time assignment: the cumulative counts track the group sizes,
no row occurs twice, groups are nonempty, strictly descending in time
across the list, and homogeneous in time within each group. -/
def TSInv (timeOf : ℕ → ℤ) (s : TSState) : Prop :=
  s.cumsumInUse = cumSums (s.groupsInUse.map (fun g => (g.length : ℤ)))
    ∧ s.groupsInUse.flatten.Nodup
    ∧ (∀ g ∈ s.groupsInUse, g ≠ [])
    ∧ s.groupsInUse.Pairwise (fun g h => ∀ a ∈ g, ∀ b ∈ h, timeOf b < timeOf a)
    ∧ ∀ g ∈ s.groupsInUse, ∀ a ∈ g, ∀ b ∈ g, timeOf a = timeOf b

/-! ### DataSplitter.reset / DataSplitter.split (utils.py lines 260-292)

`DSState` carries the fields of a fitted `DataSplitter` that `reset` and
`split` read or write.  Randomness is again passed in: `regShuffled`
models `np.random.permutation`/`np.random.shuffle` for the regression
pool, `sigma` the shuffled chosen-index array of `_split_clf` and
`poolsShuffled` the reshuffled per-label pools of its `replace` branch. -/

inductive SplitErr where
  | notReset      -- "please call 'reset' method before calling 'split' method"
  | typeFault     -- TypeError: len(None) or non-integer count
  | indexFault    -- IndexError inside _split_time_series
  | assertFault   -- assert len(tgt_indices) == n
  | clf (e : ClfErr)
  deriving Repr, DecidableEq

structure DSState where
  isRegression : Bool
  isTimeSeries : Bool
  nX : ℕ
  nUniqueLabels : ℕ
  nSamples : ℕ
  rep : Bool
  remained : Option (List ℕ)
  labelInUse : Option (List (List ℕ))
  tsInUse : Option TSState
  ratios : List ℚ
  deriving Repr, DecidableEq

/-- Embeds `DataSplitter.reset`: dispatches on the time column / task type and
rebuilds the sampling pools.  The pool contents produced by the
corresponding `_reset_*` method (which shuffle when `shuffle=True`) are
supplied as `regPool` / `clfPools` / `tsData`.  `_reset_time_series`
sets only the time-series fields: `_label_indices_list_in_use` keeps
whatever value it had (None after construction). -/
def resetDS (regPool : List ℕ) (clfPools : List (List ℕ)) (tsData : TSState)
    (s : DSState) : DSState :=
  if s.isTimeSeries then
    { s with tsInUse := some tsData, remained := some tsData.groupsInUse.flatten }
  else if s.isRegression then
    { s with remained := some regPool }
  else
    { s with labelInUse := some clfPools, remained := some clfPools.flatten }

/-- Embeds `DataSplitter.split(n)`: the two not-reset guards (lines 271-275),
the whole-pool branch (lines 276-281), the fraction conversion
(lines 282-283), the policy dispatch (lines 284-288) and the final
`assert len(tgt_indices) == n` (line 289).  Returns the result (or the
error raised) together with the splitter state after the call. -/
def splitDS (regShuffled : List ℕ) (sigma : List ℕ) (poolsShuffled : List (List ℕ))
    (s : DSState) (nq : ℚ) : Except SplitErr (List ℕ × List ℕ) × DSState :=
  if s.isRegression ∧ s.remained = none then (.error .notReset, s)
  else if ¬ (s.isRegression = true) ∧ s.labelInUse = none then (.error .notReset, s)
  else
    match s.remained with
    | none => (.error .typeFault, s)
    | some pool =>
      if (pool.length : ℚ) ≤ nq then (.ok (pool, []), s)
      else
        match (if nq < 1 then Except.ok (ratTrunc ((s.nX : ℚ) * nq))
               else if nq.den = 1 then Except.ok nq.num
               else Except.error SplitErr.typeFault) with
        | .error e => (.error e, s)
        | .ok nn =>
          if s.isTimeSeries then
            match s.tsInUse with
            | none => (.error .typeFault, s)
            | some ts =>
              match tsSplit ts nn with
              | none => (.error .indexFault, s)
              | some (tgt, ts2) =>
                let s2 : DSState :=
                  { s with tsInUse := some ts2, remained := some ts2.groupsInUse.flatten }
                if (tgt.length : ℤ) = nn then (.ok (tgt, ts2.groupsInUse.flatten), s2)
                else (.error .assertFault, s2)
          else if s.isRegression then
            let tp := splitReg s.rep regShuffled pool nn
            let s2 : DSState := { s with remained := some tp.2 }
            if (tp.1.length : ℤ) = nn then (.ok (tp.1, tp.2), s2)
            else (.error .assertFault, s2)
          else
            match s.labelInUse with
            | none => (.error .typeFault, s)
            | some pools =>
              match splitClf s.nUniqueLabels s.nSamples s.rep s.ratios sigma
                  poolsShuffled pools nn with
              | (.error e, pools2) =>
                (.error (.clf e), { s with labelInUse := some pools2 })
              | (.ok (tgt, remain), pools2) =>
                let s2 : DSState :=
                  { s with labelInUse := some pools2, remained := some remain }
                if (tgt.length : ℤ) = nn then (.ok (tgt, remain), s2)
                else (.error .assertFault, s2)

/-- A sequence of `split` calls on a time-series splitter, each with a
valid size (at least 1 and strictly below the current pool size),
recording the returned index sets in call order. -/
inductive ValidRun : TSState → List ℤ → List (List ℕ) → TSState → Prop where
  | nil (s : TSState) : ValidRun s [] [] s
  | cons (s : TSState) (n : ℤ) (ns : List ℤ) (tgt : List ℕ) (tgts : List (List ℕ))
      (s2 sEnd : TSState) :
      1 ≤ n → n < (s.groupsInUse.flatten.length : ℤ) →
      tsSplit s n = some (tgt, s2) →
      ValidRun s2 ns tgts sEnd →
      ValidRun s (n :: ns) (tgt :: tgts) sEnd

lemma mkChain_length (dims : List (ℕ × ℕ)) : (mkChain dims).length = dims.length := by
  simp [mkChain]

lemma mkChain_getD (dims : List (ℕ × ℕ)) (i : ℕ) (h : i < dims.length) :
    (mkChain dims).getD i default
      = Proc.init (dims.take i) (dims.getD i (0, 0)).1 (dims.getD i (0, 0)).2 := by
  unfold mkChain
  rw [List.getD_eq_getElem?_getD, List.getElem?_map, List.getElem?_range h]
  rfl

/-- C2: for every chain of Processors each constructed with the ordered
list of all preceding processors, the i-th processor's input_indices are
the contiguous range starting at the sum of the preceding input
dimensions, and its output_indices the contiguous range starting at the
sum of the preceding output dimensions. -/
theorem c2_offset_invariant (dims : List (ℕ × ℕ)) (i : ℕ) (h : i < dims.length) :
    ((mkChain dims).getD i default).inputIndices
        = List.range' (((dims.take i).map Prod.fst).sum) (dims.getD i (0, 0)).1 1
      ∧ ((mkChain dims).getD i default).outputIndices
        = List.range' (((dims.take i).map Prod.snd).sum) (dims.getD i (0, 0)).2 1 := by
  rw [mkChain_getD dims i h]
  constructor
  · show (List.range (dims.getD i (0, 0)).1).map _ = _
    rw [List.range'_eq_map_range]
  · show (List.range (dims.getD i (0, 0)).2).map _ = _
    rw [List.range'_eq_map_range]
    rfl

/-- Witness for C2 at a concrete 3-processor chain 1→1, 1→3, 2→1. -/
theorem c2_offset_invariant_witness :
    ((mkChain [(1, 1), (1, 3), (2, 1)]).getD 2 default).inputIndices = [2, 3]
      ∧ ((mkChain [(1, 1), (1, 3), (2, 1)]).getD 2 default).outputIndices = [4] := by
  have h := c2_offset_invariant [(1, 1), (1, 3), (2, 1)] 2 (by decide)
  rw [h.1, h.2]
  decide

lemma copyOnWrite_frame (fMut : List ℤ → List ℤ) (s : Store) (r : ℕ)
    (h : r < s.bufs.length) :
    ((s.allocBuf (s.readBuf r)).1.writeBuf (s.allocBuf (s.readBuf r)).2
        (fMut ((s.allocBuf (s.readBuf r)).1.readBuf (s.allocBuf (s.readBuf r)).2))).readBuf r
      = s.readBuf r := by
  simp only [Store.allocBuf, Store.writeBuf, Store.readBuf]
  rw [List.getD_eq_getElem?_getD, List.getElem?_set_ne (by omega)]
  rw [List.getElem?_append_left h, List.getD_eq_getElem?_getD]

/-- C8: with `inplace=False`, both `Processor.process` and
`Processor.recover` operate on a private copy: whatever in-place
mutation the concrete `_process`/`_recover` applies to the buffer it is
given, the caller's input buffer is unchanged after the call. -/
theorem c8_inplace_false_preserves_input (fMut gMut : List ℤ → List ℤ)
    (s : Store) (r : ℕ) (h : r < s.bufs.length) :
    (processM false fMut s r).1.readBuf r = s.readBuf r
      ∧ (recoverM false gMut s r).1.readBuf r = s.readBuf r := by
  constructor
  · show ((s.allocBuf (s.readBuf r)).1.writeBuf _ _).readBuf r = _
    exact copyOnWrite_frame fMut s r h
  · show ((s.allocBuf (s.readBuf r)).1.writeBuf _ _).readBuf r = _
    exact copyOnWrite_frame gMut s r h

/-- Witness for C8: a processor body that zeroes its buffer leaves the
caller's buffer `[3, 4]` intact when `inplace=False`. -/
theorem c8_inplace_false_preserves_input_witness :
    (processM false (fun l => l.map (fun _ => 0)) ⟨[[3, 4]]⟩ 0).1.readBuf 0 = [3, 4]
      ∧ (recoverM false (fun l => l.map (fun _ => 0)) ⟨[[3, 4]]⟩ 0).1.readBuf 0 = [3, 4] := by
  have h := c8_inplace_false_preserves_input (fun l => l.map (fun _ => 0))
    (fun l => l.map (fun _ => 0)) ⟨[[3, 4]]⟩ 0 (by decide)
  exact ⟨h.1, h.2⟩

/-- C10 counterexample: on the empty list of fractions (each ≤ 1
vacuously, sum 0 < 1) the code raises IndexError at
`n_list[-1] = n_selected - sum(n_list[:-1])` instead of returning a
one-element list of splits. -/
theorem c10_counterexample :
    splitMultipleCounts 10 [] false = .error .indexFault := by
  rfl

/-- C10 (amended): for every call to split_multiple with a NONEMPTY list
of fractions each at most 1 whose sum is strictly below 1, an extra
count covering all rows missed by the fractions is appended regardless
of `return_remained`: the computed count list has one more element than
the input, sums to the total number of rows, and its last element is
`n_total - int(n_total * sum(fractions))`.  Consequently the returned
list `map split counts` has one more element than the input list. -/
theorem c10_split_multiple (nTotal : ℕ) (nList : List ℚ) (returnRemained : Bool)
    (hne : nList ≠ []) (hle : ∀ q ∈ nList, q ≤ 1) (hsum : nList.sum < 1) :
    ∃ counts, splitMultipleCounts nTotal nList returnRemained = .ok counts
      ∧ counts.length = nList.length + 1
      ∧ counts.sum = (nTotal : ℚ)
      ∧ counts.getLast? = some ((nTotal : ℚ) - ((ratTrunc ((nTotal : ℚ) * nList.sum) : ℤ) : ℚ)) := by
  obtain ⟨a, rest, rfl⟩ := List.exists_cons_of_ne_nil hne
  set L : List ℚ := a :: rest with hL
  set front : List ℚ := L.dropLast.map (fun q => ((ratTrunc ((nTotal : ℚ) * q) : ℤ) : ℚ))
    with hfront
  set nSel : ℤ := ratTrunc ((nTotal : ℚ) * L.sum) with hnSel
  have heq : splitMultipleCounts nTotal L returnRemained
      = .ok ((front ++ [((nSel : ℤ) : ℚ) - front.sum]) ++ [(nTotal : ℚ) - ((nSel : ℤ) : ℚ)]) := by
    unfold splitMultipleCounts
    rw [if_neg (by push_neg; exact hle)]
    simp only
    rw [if_neg (not_lt.mpr hsum.le), if_neg (by rintro ⟨-, h1⟩; exact absurd h1 hsum.ne)]
    rw [hL]
    rw [if_pos (hL ▸ hsum)]
  refine ⟨_, heq, ?_, ?_, ?_⟩
  · rw [List.length_append, List.length_append, hfront, List.length_map,
      List.length_dropLast, hL]
    simp
  · simp only [List.sum_append, List.sum_cons, List.sum_nil]
    ring
  · rw [List.getLast?_concat]

/-- Witness for C10: fractions `[1/2]` over 10 rows yield two counts. -/
theorem c10_split_multiple_witness :
    ∃ counts, splitMultipleCounts 10 [1/2] false = .ok counts
      ∧ counts.length = 1 + 1
      ∧ counts.sum = (10 : ℚ)
      ∧ counts.getLast? = some ((10 : ℚ) - ((ratTrunc ((10 : ℚ) * ([(1 : ℚ)/2].sum)) : ℤ) : ℚ)) := by
  exact c10_split_multiple 10 [1/2] false (by simp) (by norm_num) (by norm_num)

lemma npTail_pos_eq_drop (l : List α) (n : ℤ) (h0 : 0 < n) :
    npTail l n = l.drop (l.length - n.toNat) := by
  simp [npTail, h0]

lemma npTail_length (l : List α) (n : ℤ) (h0 : 0 < n) (hn : n ≤ (l.length : ℤ)) :
    (npTail l n).length = n.toNat := by
  rw [npTail_pos_eq_drop l n h0, List.length_drop]
  omega

lemma splitReg_basic (rep : Bool) (shuffled : List ℕ) (pool : List ℕ) (n : ℤ)
    (h1 : 1 ≤ n) (h2 : n < (pool.length : ℤ)) :
    splitReg rep shuffled pool n
      = (pool.drop (pool.length - n.toNat),
         if rep then shuffled else pool.take (pool.length - n.toNat)) := by
  have hmin : min n ((pool.length : ℤ) - 1) = n := min_eq_left (by omega)
  have htake : npTake pool (-n) = pool.take (pool.length - n.toNat) := by
    unfold npTake
    rw [if_neg (by omega)]
    simp
  simp only [splitReg, hmin, npTail_pos_eq_drop pool n (by omega : (0 : ℤ) < n),
    if_pos (by omega : (0 : ℤ) < n), htake]

/-- C6: for a regression splitter and `1 ≤ n <` pool size, `split(n)`
returns exactly the last `n` indices of the remained pool; with
`replace=False` the new pool is the old pool with those last `n`
indices removed (its prefix), and with `replace=True` the pool is
replaced by a reshuffling of itself, so its size does not shrink. -/
theorem c6_split_reg_tail (rep : Bool) (shuffled : List ℕ) (pool : List ℕ) (n : ℤ)
    (h1 : 1 ≤ n) (h2 : n < (pool.length : ℤ)) (hperm : rep = true → shuffled.Perm pool) :
    (splitReg rep shuffled pool n).1 = pool.drop (pool.length - n.toNat)
      ∧ ((splitReg rep shuffled pool n).1).length = n.toNat
      ∧ pool.take (pool.length - n.toNat) ++ (splitReg rep shuffled pool n).1 = pool
      ∧ (rep = false →
          (splitReg rep shuffled pool n).2 = pool.take (pool.length - n.toNat))
      ∧ (rep = true →
          (splitReg rep shuffled pool n).2.Perm pool
            ∧ (splitReg rep shuffled pool n).2.length = pool.length) := by
  rw [splitReg_basic rep shuffled pool n h1 h2]
  refine ⟨rfl, ?_, List.take_append_drop _ _, ?_, ?_⟩
  · rw [List.length_drop]; omega
  · intro hrep; subst hrep; simp
  · intro hrep; subst hrep
    simpa using ⟨hperm rfl, (hperm rfl).length_eq⟩

/-- Witness for C6: pool `[4, 7, 1, 9]`, `n = 2`, both replace modes. -/
theorem c6_split_reg_tail_witness :
    ((splitReg false [] [4, 7, 1, 9] 2).1 = [4, 7, 1, 9].drop 2
        ∧ ((splitReg false [] [4, 7, 1, 9] 2).1).length = 2
        ∧ [4, 7, 1, 9].take 2 ++ (splitReg false [] [4, 7, 1, 9] 2).1 = [4, 7, 1, 9]
        ∧ (false = false → (splitReg false [] [4, 7, 1, 9] 2).2 = [4, 7, 1, 9].take 2)
        ∧ (false = true → (splitReg false [] [4, 7, 1, 9] 2).2.Perm [4, 7, 1, 9]
            ∧ (splitReg false [] [4, 7, 1, 9] 2).2.length = 4))
      ∧ ((splitReg true [9, 4, 1, 7] [4, 7, 1, 9] 2).1 = [4, 7, 1, 9].drop 2
        ∧ ((splitReg true [9, 4, 1, 7] [4, 7, 1, 9] 2).1).length = 2
        ∧ [4, 7, 1, 9].take 2 ++ (splitReg true [9, 4, 1, 7] [4, 7, 1, 9] 2).1 = [4, 7, 1, 9]
        ∧ (true = false → (splitReg true [9, 4, 1, 7] [4, 7, 1, 9] 2).2 = [4, 7, 1, 9].take 2)
        ∧ (true = true → (splitReg true [9, 4, 1, 7] [4, 7, 1, 9] 2).2.Perm [4, 7, 1, 9]
            ∧ (splitReg true [9, 4, 1, 7] [4, 7, 1, 9] 2).2.length = 4)) := by
  constructor
  · exact c6_split_reg_tail false [] [4, 7, 1, 9] 2 (by decide) (by decide)
      (fun h => absurd h (by decide))
  · exact c6_split_reg_tail true [9, 4, 1, 7] [4, 7, 1, 9] 2 (by decide) (by decide)
      (fun _ => by decide)

lemma applyDecs_length (sign : ℤ) (counts : List ℤ) (idxs : List ℕ) :
    (applyDecs sign counts idxs).length = counts.length := by
  induction idxs generalizing counts with
  | nil => rfl
  | cons i is ih =>
    show (applyDecs sign (counts.set i (counts.getD i 0 - sign)) is).length = counts.length
    rw [ih (counts.set i (counts.getD i 0 - sign)), List.length_set]

lemma sum_set_int (l : List ℤ) (i : ℕ) (v : ℤ) (h : i < l.length) :
    (l.set i v).sum = l.sum - l.getD i 0 + v := by
  induction l generalizing i with
  | nil => simp at h
  | cons a as ih =>
    cases i with
    | zero => simp [List.set]; ring
    | succ j =>
      have hj : j < as.length := by simpa using h
      simp only [List.set, List.sum_cons, List.getD_cons_succ, ih j hj]
      ring

lemma getD_set_int (l : List ℤ) (i j : ℕ) (v : ℤ) (h : i < l.length) :
    (l.set i v).getD j 0 = if i = j then v else l.getD j 0 := by
  induction l generalizing i j with
  | nil => simp at h
  | cons a as ih =>
    cases i with
    | zero =>
      cases j with
      | zero => simp
      | succ k => simp
    | succ i0 =>
      cases j with
      | zero => simp
      | succ k =>
        have hi : i0 < as.length := by simpa using h
        simp only [List.set, List.getD_cons_succ, ih i0 k hi]
        by_cases hik : i0 = k <;> simp [hik]

lemma applyDecs_sum (sign : ℤ) (counts : List ℤ) (idxs : List ℕ)
    (h : ∀ i ∈ idxs, i < counts.length) :
    (applyDecs sign counts idxs).sum = counts.sum - sign * idxs.length := by
  induction idxs generalizing counts with
  | nil => simp [applyDecs]
  | cons i is ih =>
    have hi : i < counts.length := h i (List.mem_cons_self i is)
    have hrec := ih (counts.set i (counts.getD i 0 - sign))
      (fun j hj => by rw [List.length_set]; exact h j (List.mem_cons_of_mem _ hj))
    show (applyDecs sign (counts.set i (counts.getD i 0 - sign)) is).sum = _
    rw [hrec, sum_set_int counts i _ hi]
    push_cast [List.length_cons]
    ring

lemma applyDecs_getD (sign : ℤ) (counts : List ℤ) (idxs : List ℕ) (j : ℕ)
    (h : ∀ i ∈ idxs, i < counts.length) :
    (applyDecs sign counts idxs).getD j 0 = counts.getD j 0 - sign * idxs.count j := by
  induction idxs generalizing counts with
  | nil => simp [applyDecs]
  | cons i is ih =>
    have hi : i < counts.length := h i (List.mem_cons_self i is)
    have hrec := ih (counts.set i (counts.getD i 0 - sign))
      (fun k hk => by rw [List.length_set]; exact h k (List.mem_cons_of_mem _ hk))
    show (applyDecs sign (counts.set i (counts.getD i 0 - sign)) is).getD j 0 = _
    rw [hrec, getD_set_int counts i j _ hi]
    by_cases hij : i = j
    · subst hij
      rw [if_pos rfl, List.count_cons_self]
      push_cast
      ring
    · rw [if_neg hij, List.count_cons_of_ne (by simpa using Ne.symm hij)]

lemma ceil_div_bounds (e c : ℤ) (he : 1 ≤ e) (hc : 1 ≤ c) :
    ((e + c - 1) / c - 1) * c < e ∧ e ≤ ((e + c - 1) / c) * c ∧ 1 ≤ (e + c - 1) / c := by
  have hdm := Int.ediv_add_emod (e + c - 1) c
  have hr0 : 0 ≤ (e + c - 1) % c := Int.emod_nonneg _ (by omega)
  have hrc : (e + c - 1) % c < c := Int.emod_lt_of_pos _ (by omega)
  have h3 : 1 ≤ (e + c - 1) / c := by
    rcases le_or_lt 1 ((e + c - 1) / c) with h | h
    · exact h
    · exfalso
      have hct : c * ((e + c - 1) / c) ≤ 0 :=
        mul_nonpos_iff.mpr (Or.inl ⟨by omega, by omega⟩)
      linarith
  refine ⟨?_, ?_, h3⟩
  · have hx : ((e + c - 1) / c - 1) * c = c * ((e + c - 1) / c) - c := by ring
    rw [hx]
    linarith
  · have hy : ((e + c - 1) / c) * c = c * ((e + c - 1) / c) := by ring
    rw [hy]
    linarith

lemma clfAdjust_spec (counts0 : List ℤ) (sigma : List ℕ) (n : ℤ)
    (hmem : ∀ i ∈ sigma, i < counts0.length) (hnd : sigma.Nodup)
    (hne : counts0.sum ≠ n → sigma ≠ []) :
    ∃ counts, clfAdjust counts0 sigma n = .ok counts
      ∧ counts.sum = n
      ∧ counts.length = counts0.length
      ∧ ∀ j, |counts.getD j 0 - counts0.getD j 0| ≤ clfTile counts0 sigma n := by
  by_cases hex : counts0.sum - n = 0
  · refine ⟨counts0, ?_, by omega, rfl, ?_⟩
    · unfold clfAdjust
      rw [if_pos hex]
    · intro j
      simp [clfTile, hex]
  · have hσ : sigma ≠ [] := hne (fun h => hex (by omega))
    have hlp : 0 < sigma.length := List.length_pos.mpr hσ
    have hc1 : 1 ≤ ((sigma.length : ℕ) : ℤ) := by exact_mod_cast hlp
    have habs0 : 0 < |counts0.sum - n| := abs_pos.mpr hex
    have he1 : (1 : ℤ) ≤ |counts0.sum - n| := by omega
    obtain ⟨hb1, hb2, hb3⟩ := ceil_div_bounds (|counts0.sum - n|) ((sigma.length : ℕ) : ℤ)
      he1 hc1
    set e := |counts0.sum - n| with hedef
    set c : ℤ := ((sigma.length : ℕ) : ℤ) with hcdef
    set t := (e + c - 1) / c with htdef
    have hring : t * c = (t - 1) * c + c := by ring
    have htn1 : (((t - 1).toNat : ℕ) : ℤ) = t - 1 := Int.toNat_of_nonneg (by omega)
    have htn2 : (((e - (t - 1) * c).toNat : ℕ) : ℤ) = e - (t - 1) * c :=
      Int.toNat_of_nonneg (by linarith)
    have hminN : (e - (t - 1) * c).toNat ≤ sigma.length := by
      rw [Int.toNat_le]
      rw [hcdef] at hring hb2 ⊢
      linarith
    set sign : ℤ := if 0 < counts0.sum - n then 1 else -1 with hsdef
    set decs := (List.replicate (t - 1).toNat sigma).flatten
      ++ sigma.take (e - (t - 1) * c).toNat with hdecs
    have hdmem : ∀ i ∈ decs, i < counts0.length := by
      intro i hi
      rw [hdecs, List.mem_append] at hi
      rcases hi with hi | hi
      · rw [List.mem_flatten] at hi
        obtain ⟨l, hl, hil⟩ := hi
        rw [List.eq_of_mem_replicate hl] at hil
        exact hmem i hil
      · exact hmem i (List.mem_of_mem_take hi)
    have hdlen : ((decs.length : ℕ) : ℤ) = e := by
      rw [hdecs, List.length_append, List.length_flatten, List.map_replicate,
        List.sum_replicate, smul_eq_mul, List.length_take, min_eq_left hminN]
      push_cast
      rw [htn1, htn2]
      rw [hcdef]
      ring
    have hclf : clfAdjust counts0 sigma n = .ok (applyDecs sign counts0 decs) := by
      unfold clfAdjust
      rw [if_neg hex]
      simp only
      rw [if_neg (by omega : ¬ sigma.length = 0)]
    refine ⟨applyDecs sign counts0 decs, hclf, ?_, applyDecs_length sign counts0 decs, ?_⟩
    · rw [applyDecs_sum sign counts0 decs hdmem, hdlen]
      rcases lt_trichotomy 0 (counts0.sum - n) with hpos | hzero | hneg
      · have hs1 : sign = 1 := if_pos hpos
        have heq : e = counts0.sum - n := by rw [hedef]; exact abs_of_pos hpos
        rw [hs1, heq]
        ring
      · exact absurd hzero.symm hex
      · have hs1 : sign = -1 := if_neg (by omega)
        have heq : e = -(counts0.sum - n) := by rw [hedef]; exact abs_of_neg hneg
        rw [hs1, heq]
        ring
    · intro j
      rw [applyDecs_getD sign counts0 decs j hdmem]
      have hσcnt : sigma.count j ≤ 1 := List.nodup_iff_count_le_one.mp hnd j
      have hcntN : decs.count j ≤ (t - 1).toNat + 1 := by
        rw [hdecs, List.count_append, List.count_flatten, List.map_replicate,
          List.sum_replicate, smul_eq_mul]
        have h1 : (t - 1).toNat * sigma.count j ≤ (t - 1).toNat := by
          calc (t - 1).toNat * sigma.count j ≤ (t - 1).toNat * 1 :=
                Nat.mul_le_mul_left _ hσcnt
            _ = (t - 1).toNat := Nat.mul_one _
        have h2 : (sigma.take (e - (t - 1) * c).toNat).count j ≤ 1 :=
          le_trans ((List.take_sublist _ _).count_le j) hσcnt
        omega
      have hcnt : ((decs.count j : ℕ) : ℤ) ≤ t := by
        have := hcntN
        omega
      have hsign : sign = 1 ∨ sign = -1 := by
        rw [hsdef]
        by_cases h : 0 < counts0.sum - n
        · exact Or.inl (if_pos h)
        · exact Or.inr (if_neg h)
      have htile : clfTile counts0 sigma n = t := by
        rw [clfTile, if_neg hex]
      rw [htile]
      have hrw : counts0.getD j 0 - sign * ((decs.count j : ℕ) : ℤ) - counts0.getD j 0
          = -(sign * ((decs.count j : ℕ) : ℤ)) := by ring
      rw [hrw, abs_neg, abs_mul]
      have habs : |sign| = 1 := by
        rcases hsign with hs | hs <;> rw [hs] <;> decide
      rw [habs, one_mul, abs_of_nonneg (by positivity)]
      exact hcnt

lemma npRound_eq_floor (q : ℚ) (h : q - (Int.floor q : ℚ) < 1/2) :
    npRound q = Int.floor q := by
  unfold npRound
  rw [if_pos h]

lemma npRound_eq_floor_add_one (q : ℚ) (h : 1/2 < q - (Int.floor q : ℚ)) :
    npRound q = Int.floor q + 1 := by
  unfold npRound
  rw [if_neg (by linarith), if_pos h]

lemma clfChosenBase_nodup (ratios : List ℚ) (n : ℤ) : (clfChosenBase ratios n).Nodup :=
  (List.nodup_range _).filter _

lemma clfChosenBase_mem_lt (ratios : List ℚ) (n : ℤ) (i : ℕ)
    (h : i ∈ clfChosenBase ratios n) : i < ratios.length := by
  have := List.mem_filter.mp h
  exact List.mem_range.mp this.1

/-- C3 counterexample: fit on 1000 rows with ten labels of counts
9 × 1 and 991 (ratios 1/1000 each and 991/1000) and call `split(100)`
(n = 100 is ten times the unique-label count).  The only adjustable
label is label 9 (`n_samples_per_label != 1` holds only there, so the
shuffled chosen-index array is exactly `[9]`); eight corrective
decrements all land on it, giving a drawn count of 91, while
`round(n * label_ratio) = round(99.1) = 99`: the adjusted count differs
from the rounded target by 8, not at most 1 (the counts still sum to
100). -/
theorem c3_counterexample :
    clfCounts (List.replicate 9 (1/1000) ++ [991/1000]) [9] 100
        = .ok (List.replicate 9 1 ++ [91])
      ∧ npRound ((100 : ℚ) * (991/1000)) = 99
      ∧ ¬ |(91 : ℤ) - 99| ≤ 1 := by
  have e1 : npRound (((100 : ℤ) : ℚ) * (1/1000)) = 0 := by
    have hq : (((100 : ℤ) : ℚ) * (1/1000)) = 1/10 := by norm_num
    rw [hq, npRound_eq_floor _ (by norm_num)]
    norm_num
  have e2 : npRound (((100 : ℤ) : ℚ) * (991/1000)) = 99 := by
    have hq : (((100 : ℤ) : ℚ) * (991/1000)) = 991/10 := by norm_num
    rw [hq, npRound_eq_floor _ (by norm_num)]
    norm_num
  have h0 : clfCounts0 (List.replicate 9 (1/1000) ++ [991/1000]) 100
      = List.replicate 9 1 ++ [99] := by
    unfold clfCounts0
    rw [List.map_append, List.map_replicate, List.map_singleton, e1, e2]
    norm_num
  refine ⟨?_, ?_, by decide⟩
  · rw [clfCounts, h0]
    rfl
  · have hq : ((100 : ℚ) * (991/1000)) = 991/10 := by norm_num
    rw [hq, npRound_eq_floor _ (by norm_num)]
    norm_num

/-- C3 (amended): for a classification split, the per-label target
counts start from `max(1, round(n * label_ratio))` and, whenever their
sum differs from `n` and at least one of them differs from 1, they are
adjusted so that they sum to exactly `n`, each adjusted count differing
from `max(1, round(n * label_ratio))` by at most
`ceil(|sum - n| / #{labels with count != 1})` (`clfTile`, which is the
loop's `n_tile` and can exceed 1); if every initial count equals 1
while the sum differs from `n`, the code instead crashes on
`int(np.ceil(x / 0))`. -/
theorem c3_stratified_counts (ratios : List ℚ) (sigma : List ℕ) (n : ℤ)
    (hperm : sigma.Perm (clfChosenBase ratios n))
    (hne : (clfCounts0 ratios n).sum ≠ n → clfChosenBase ratios n ≠ []) :
    ∃ counts, clfCounts ratios sigma n = .ok counts
      ∧ counts.sum = n
      ∧ counts.length = ratios.length
      ∧ ∀ j, |counts.getD j 0 - (clfCounts0 ratios n).getD j 0|
          ≤ clfTile (clfCounts0 ratios n) sigma n := by
  have hlen0 : (clfCounts0 ratios n).length = ratios.length := by
    simp [clfCounts0]
  have hmem : ∀ i ∈ sigma, i < (clfCounts0 ratios n).length := by
    intro i hi
    rw [hlen0]
    exact clfChosenBase_mem_lt ratios n i (hperm.mem_iff.mp hi)
  have hnd : sigma.Nodup := hperm.nodup_iff.mpr (clfChosenBase_nodup ratios n)
  have hne2 : (clfCounts0 ratios n).sum ≠ n → sigma ≠ [] := by
    intro h hnil
    have := hperm.length_eq
    rw [hnil] at this
    exact (hne h) (List.eq_nil_of_length_eq_zero this.symm)
  obtain ⟨counts, hok, hsum, hlen, hdev⟩ :=
    clfAdjust_spec (clfCounts0 ratios n) sigma n hmem hnd hne2
  exact ⟨counts, hok, hsum, hlen.trans hlen0, hdev⟩

/-- Witness for C3: ratios 3/10 and 7/10, `n = 4`; the rounded counts
`[1, 3]` already sum to 4 and the deviation bound is 0. -/
theorem c3_stratified_counts_witness :
    ∃ counts, clfCounts [3/10, 7/10] [1] 4 = .ok counts
      ∧ counts.sum = 4
      ∧ counts.length = ([(3 : ℚ)/10, 7/10]).length
      ∧ ∀ j, |counts.getD j 0 - (clfCounts0 [3/10, 7/10] 4).getD j 0|
          ≤ clfTile (clfCounts0 [3/10, 7/10] 4) [1] 4 := by
  have e3 : npRound (((4 : ℤ) : ℚ) * (3/10)) = 1 := by
    have hq : (((4 : ℤ) : ℚ) * (3/10)) = 6/5 := by norm_num
    rw [hq, npRound_eq_floor _ (by norm_num)]
    norm_num
  have e4 : npRound (((4 : ℤ) : ℚ) * (7/10)) = 3 := by
    have hq : (((4 : ℤ) : ℚ) * (7/10)) = 14/5 := by norm_num
    rw [hq, npRound_eq_floor_add_one _ (by norm_num)]
    norm_num
  have h0 : clfCounts0 [3/10, 7/10] 4 = [1, 3] := by
    unfold clfCounts0
    rw [List.map_cons, List.map_cons, List.map_nil, e3, e4]
    norm_num
  have hcb : clfChosenBase [3/10, 7/10] 4 = [1] := by
    unfold clfChosenBase
    rw [h0]
    decide
  exact c3_stratified_counts [3/10, 7/10] [1] 4 (by rw [hcb]) (fun _ => by rw [hcb]; decide)

lemma clfCounts_error_overflow (ratios : List ℚ) (sigma : List ℕ) (n : ℤ) (e : ClfErr)
    (h : clfCounts ratios sigma n = .error e) : e = .overflowFault := by
  unfold clfCounts clfAdjust at h
  by_cases h1 : (clfCounts0 ratios n).sum - n = 0
  · rw [if_pos h1] at h
    exact absurd h (by simp)
  · rw [if_neg h1] at h
    simp only at h
    by_cases h2 : sigma.length = 0
    · rw [if_pos h2] at h
      cases h
      rfl
    · rw [if_neg h2] at h
      exact absurd h (by simp)

/-- C7: for a classification splitter and any requested size `n` below
the current pool size, `_split_clf` fails with the InsufficientLabels
error exactly when `n` is strictly below the number of unique labels,
and that failure is raised before any state mutation, so the per-label
pools are returned unchanged and the caller may retry with a larger
`n`. -/
theorem c7_insufficient_labels (nU : ℕ) (nSamples : ℕ) (rep : Bool) (ratios : List ℚ)
    (sigma : List ℕ) (poolsShuffled : List (List ℕ)) (pools : List (List ℕ)) (n : ℤ)
    (hpool : n < (pools.flatten.length : ℤ)) :
    ((splitClf nU nSamples rep ratios sigma poolsShuffled pools n).1
        = .error .insufficientLabels ↔ n < (nU : ℤ))
      ∧ (n < (nU : ℤ) →
          splitClf nU nSamples rep ratios sigma poolsShuffled pools n
            = (.error .insufficientLabels, pools)) := by
  have hlow : n < (nU : ℤ) →
      splitClf nU nSamples rep ratios sigma poolsShuffled pools n
        = (.error .insufficientLabels, pools) := by
    intro h
    unfold splitClf
    rw [if_pos h]
  refine ⟨⟨?_, fun h => by rw [hlow h]⟩, hlow⟩
  intro hres
  by_contra hge
  unfold splitClf at hres
  rw [if_neg hge] at hres
  rcases hc : clfCounts ratios sigma n with e | counts
  · rw [hc] at hres
    simp only at hres
    have := clfCounts_error_overflow ratios sigma n e hc
    rw [this] at hres
    cases hres
  · rw [hc] at hres
    simp only at hres
    by_cases hsum : counts.sum = n
    · rw [if_pos hsum] at hres
      by_cases hrep : rep
      · rw [if_pos hrep] at hres
        cases hres
      · rw [if_neg hrep] at hres
        split_ifs at hres <;> cases hres
    · rw [if_neg hsum] at hres
      cases hres

/-- Witness for C7: two labels with pools `[[0], [1, 2]]`; `split(1)`
fails with InsufficientLabels (1 < 2 unique labels) and leaves the
pools unchanged, while the criterion separates it from `split(2)`. -/
theorem c7_insufficient_labels_witness :
    ((splitClf 2 3 false [1/3, 2/3] [] [] [[0], [1, 2]] 1).1
        = .error .insufficientLabels ↔ (1 : ℤ) < (2 : ℕ))
      ∧ ((1 : ℤ) < (2 : ℕ) →
          splitClf 2 3 false [1/3, 2/3] [] [] [[0], [1, 2]] 1
            = (.error .insufficientLabels, [[0], [1, 2]])) := by
  exact c7_insufficient_labels 2 3 false [1/3, 2/3] [] [] [[0], [1, 2]] 1 (by norm_num)

lemma flatten_map_append_perm (f g : α → List β) (l : List α) :
    ((l.map fun x => f x ++ g x).flatten).Perm ((l.map f).flatten ++ (l.map g).flatten) := by
  induction l with
  | nil => simp
  | cons a l ih =>
    simp only [List.map_cons, List.flatten_cons]
    have h1 : g a ++ ((l.map f).flatten ++ (l.map g).flatten)
        |>.Perm ((l.map f).flatten ++ (g a ++ (l.map g).flatten)) := by
      calc g a ++ ((l.map f).flatten ++ (l.map g).flatten)
          = (g a ++ (l.map f).flatten) ++ (l.map g).flatten := by rw [List.append_assoc]
        _ |>.Perm (((l.map f).flatten ++ g a) ++ (l.map g).flatten) :=
            (List.perm_append_comm.append_right _)
        _ = (l.map f).flatten ++ (g a ++ (l.map g).flatten) := by rw [List.append_assoc]
    calc (f a ++ g a) ++ (l.map fun x => f x ++ g x).flatten
        = f a ++ (g a ++ (l.map fun x => f x ++ g x).flatten) := by rw [List.append_assoc]
      _ |>.Perm (f a ++ (g a ++ ((l.map f).flatten ++ (l.map g).flatten))) :=
          ((ih.append_left _).append_left _)
      _ |>.Perm (f a ++ ((l.map f).flatten ++ (g a ++ (l.map g).flatten))) :=
          (h1.append_left _)
      _ = (f a ++ (l.map f).flatten) ++ (g a ++ (l.map g).flatten) := by
          rw [List.append_assoc]

lemma sum_toNat_cast (l : List ℤ) (h : ∀ x ∈ l, 0 ≤ x) :
    (((l.map Int.toNat).sum : ℕ) : ℤ) = l.sum := by
  induction l with
  | nil => simp
  | cons a t ih =>
    simp only [List.map_cons, List.sum_cons, Nat.cast_add]
    rw [Int.toNat_of_nonneg (h a (List.mem_cons_self a t)),
      ih (fun x hx => h x (List.mem_cons_of_mem _ hx))]

lemma splitClf_normal (nU nSamples : ℕ) (ratios : List ℚ) (sigma : List ℕ)
    (poolsShuffled pools : List (List ℕ)) (n : ℤ) (counts : List ℤ)
    (hok : clfCounts ratios sigma n = .ok counts)
    (hsum : counts.sum = n)
    (hg : (nU : ℤ) ≤ n)
    (hlen : pools.length = counts.length)
    (hfn : pools.flatten.Nodup)
    (hbound : ∀ pk ∈ pools.zip counts, 1 ≤ pk.2 ∧ pk.2 ≤ (pk.1.length : ℤ) - 2) :
    ∃ tgt remain popped,
      splitClf nU nSamples false ratios sigma poolsShuffled pools n
        = (.ok (tgt, remain), popped)
      ∧ (tgt.length : ℤ) = n
      ∧ tgt.Disjoint remain
      ∧ remain = popped.flatten := by
  set pairs := pools.zip counts with hpairs
  set tgt := (pairs.map (fun pk => npTail pk.1 pk.2)).flatten with htgt
  set popped := pairs.map (fun pk =>
    if (pk.1.length : ℤ) - 1 ≤ pk.2 then pk.1
    else pk.1.take (pk.1.length - pk.2.toNat)) with hpopped
  set remain := popped.flatten with hremain
  have hmapfst : pairs.map Prod.fst = pools := List.map_fst_zip pools counts (le_of_eq hlen)
  have hmapsnd : pairs.map Prod.snd = counts := List.map_snd_zip pools counts (ge_of_eq hlen)
  have htgt_pt : ∀ pk ∈ pairs, npTail pk.1 pk.2 = pk.1.drop (pk.1.length - pk.2.toNat) := by
    intro pk hpk
    exact npTail_pos_eq_drop pk.1 pk.2 (by linarith [(hbound pk hpk).1])
  have hpop_pt : ∀ pk ∈ pairs, ¬ ((pk.1.length : ℤ) - 1 ≤ pk.2) := by
    intro pk hpk
    have := (hbound pk hpk).2
    omega
  have hpop_eq : popped = pairs.map (fun pk => pk.1.take (pk.1.length - pk.2.toNat)) := by
    rw [hpopped]
    exact List.map_congr_left (fun pk hpk => if_neg (hpop_pt pk hpk))
  have htgt_eq : tgt = (pairs.map (fun pk => pk.1.drop (pk.1.length - pk.2.toNat))).flatten := by
    rw [htgt]
    congr 1
    exact List.map_congr_left htgt_pt
  have hwhole : pairs.map (fun pk =>
      pk.1.take (pk.1.length - pk.2.toNat) ++ pk.1.drop (pk.1.length - pk.2.toNat))
      = pools := by
    calc pairs.map (fun pk =>
          pk.1.take (pk.1.length - pk.2.toNat) ++ pk.1.drop (pk.1.length - pk.2.toNat))
        = pairs.map Prod.fst := List.map_congr_left (fun pk _ => List.take_append_drop _ _)
      _ = pools := hmapfst
  have hperm2 : (remain ++ tgt).Perm pools.flatten := by
    rw [hremain, hpop_eq, htgt_eq, ← hwhole]
    exact (flatten_map_append_perm _ _ pairs).symm
  have hnodup2 : (remain ++ tgt).Nodup := hperm2.nodup_iff.mpr hfn
  have hdisj : tgt.Disjoint remain := ((List.nodup_append.mp hnodup2).2.2).symm
  have hlen_tgt : (tgt.length : ℤ) = n := by
    rw [htgt_eq, List.length_flatten, List.map_map]
    have hlen_pt : ∀ pk ∈ pairs,
        (List.length ∘ fun pk => pk.1.drop (pk.1.length - pk.2.toNat)) pk = pk.2.toNat := by
      intro pk hpk
      obtain ⟨hb1, hb2⟩ := hbound pk hpk
      simp only [Function.comp_apply, List.length_drop]
      omega
    rw [List.map_congr_left hlen_pt]
    have : pairs.map (fun pk => pk.2.toNat) = counts.map Int.toNat := by
      rw [show (fun pk : List ℕ × ℤ => pk.2.toNat) = Int.toNat ∘ Prod.snd from rfl,
        ← List.map_map, hmapsnd]
    rw [this, sum_toNat_cast counts ?hpos, hsum]
    case hpos =>
      intro x hx
      obtain ⟨pk, hpk, hsnd⟩ := by
        rw [← hmapsnd] at hx
        exact List.mem_map.mp hx
      rw [← hsnd]
      linarith [(hbound pk hpk).1]
  have hfilter_pairs : pairs.filter (fun pk => decide ((pk.1.length : ℤ) - 1 ≤ pk.2)) = [] := by
    rw [List.filter_eq_nil_iff]
    intro pk hpk
    simpa using hpop_pt pk hpk
  have hfilter_overlap : (List.range nSamples).filter
      (fun i => decide (i ∈ tgt) && decide (i ∈ remain)) = [] := by
    rw [List.filter_eq_nil_iff]
    intro i _
    simp only [Bool.and_eq_true, decide_eq_true_eq, not_and]
    intro hit hir
    exact (List.disjoint_left.mp hdisj hit) hir
  refine ⟨tgt, remain, popped, ?_, hlen_tgt, hdisj, rfl⟩
  rw [hremain, hpopped, hpairs] at hfilter_overlap
  rw [htgt, hpairs] at hfilter_overlap
  rw [hpairs] at hfilter_pairs
  unfold splitClf
  rw [if_neg (not_lt.mpr hg), hok]
  simp only
  rw [if_pos hsum]
  simp only [Bool.false_eq_true, if_false]
  rw [hfilter_pairs, hfilter_overlap]
  simp only [List.foldl_nil, List.length_nil, Nat.cast_zero, le_refl, if_true]

lemma cumFrom_length (acc : ℤ) (l : List ℤ) : (cumFrom acc l).length = l.length := by
  induction l generalizing acc with
  | nil => rfl
  | cons x xs ih => simp [cumFrom, ih]

lemma cumFrom_append (acc : ℤ) (xs ys : List ℤ) :
    cumFrom acc (xs ++ ys) = cumFrom acc xs ++ cumFrom (acc + xs.sum) ys := by
  induction xs generalizing acc with
  | nil => simp [cumFrom]
  | cons x xs ih =>
    simp only [List.cons_append, cumFrom, List.sum_cons, List.cons_append, List.append_eq]
    rw [ih (acc + x), show acc + (x + xs.sum) = acc + x + xs.sum by ring]

lemma cumFrom_map_sub (acc d : ℤ) (l : List ℤ) :
    (cumFrom acc l).map (fun c => c - d) = cumFrom (acc - d) l := by
  induction l generalizing acc with
  | nil => rfl
  | cons x xs ih =>
    simp only [cumFrom, List.map_cons, ih]
    rw [show acc + x - d = acc - d + x by ring]

lemma cumFrom_getElem? (acc : ℤ) (l : List ℤ) (k : ℕ) (hk : k < l.length) :
    (cumFrom acc l)[k]? = some (acc + (l.take (k + 1)).sum) := by
  induction l generalizing acc k with
  | nil => simp at hk
  | cons x xs ih =>
    cases k with
    | zero => simp [cumFrom]
    | succ j =>
      have hj : j < xs.length := by simpa using hk
      simp only [cumFrom, List.getElem?_cons_succ, ih (acc + x) j hj, List.take_succ_cons,
        List.sum_cons]
      rw [show acc + x + (xs.take (j + 1)).sum = acc + (x + (xs.take (j + 1)).sum) by ring]

lemma findFirstGe_spec (n : ℤ) (l : List ℤ) (hex : ∃ c ∈ l, n ≤ c) :
    findFirstGe n l < l.length
      ∧ (∀ j < findFirstGe n l, ∀ c, l[j]? = some c → c < n)
      ∧ (∀ c, l[findFirstGe n l]? = some c → n ≤ c) := by
  induction l with
  | nil => simp at hex
  | cons x xs ih =>
    by_cases hx : n ≤ x
    · refine ⟨?_, ?_, ?_⟩
      · simp [findFirstGe, hx]
      · intro j hj
        rw [findFirstGe, if_pos hx] at hj
        omega
      · intro c hc
        rw [findFirstGe, if_pos hx] at hc
        simp at hc
        omega
    · have hex2 : ∃ c ∈ xs, n ≤ c := by
        obtain ⟨c, hc, hnc⟩ := hex
        rcases List.mem_cons.mp hc with rfl | hmem
        · exact absurd hnc hx
        · exact ⟨c, hmem, hnc⟩
      obtain ⟨ih1, ih2, ih3⟩ := ih hex2
      refine ⟨?_, ?_, ?_⟩
      · simp only [findFirstGe, if_neg hx, List.length_cons]
        omega
      · intro j hj c hc
        rw [findFirstGe, if_neg hx] at hj
        cases j with
        | zero =>
          simp at hc
          omega
        | succ j0 =>
          rw [List.getElem?_cons_succ] at hc
          exact ih2 j0 (by omega) c hc
      · intro c hc
        rw [findFirstGe, if_neg hx, List.getElem?_cons_succ] at hc
        exact ih3 c hc

lemma cumFrom_last_mem (acc : ℤ) (l : List ℤ) (h : l ≠ []) :
    (acc + l.sum) ∈ cumFrom acc l := by
  induction l generalizing acc with
  | nil => exact absurd rfl h
  | cons x xs ih =>
    rcases List.eq_nil_or_concat' xs with rfl | -
    · simp [cumFrom]
    all_goals
      by_cases hxs : xs = []
      · subst hxs
        simp [cumFrom]
      · rw [cumFrom, List.sum_cons, List.mem_cons]
        right
        have := ih (acc + x) hxs
        rw [show acc + x + xs.sum = acc + (x + xs.sum) by ring] at this
        exact this

lemma flatten_length_cast (L : List (List ℕ)) :
    ((L.flatten.length : ℕ) : ℤ) = (L.map (fun g => (g.length : ℤ))).sum := by
  induction L with
  | nil => simp
  | cons g t ih =>
    simp only [List.flatten_cons, List.length_append, List.map_cons, List.sum_cons, Nat.cast_add]
    rw [ih]

lemma homog_pairwise_le (timeOf : ℕ → ℤ) (g : List ℕ)
    (h : ∀ a ∈ g, ∀ b ∈ g, timeOf a = timeOf b) :
    g.Pairwise (fun a b => timeOf b ≤ timeOf a) :=
  List.pairwise_of_forall_mem_list (fun a ha b hb => le_of_eq (h a ha b hb).symm)

lemma tsSplit_unfold_eq (timeOf : ℕ → ℤ) (s : TSState) (n : ℤ)
    (hC : s.cumsumInUse = cumSums (s.groupsInUse.map (fun g => (g.length : ℤ))))
    (h1 : 1 ≤ n) (h2 : n < (s.groupsInUse.flatten.length : ℤ))
    (k : ℕ) (g0 : List ℕ) (gtail : List (List ℕ))
    (hkdef : npArgmaxGe n s.cumsumInUse = k)
    (hklen : k < (s.groupsInUse.map (fun g => (g.length : ℤ))).length)
    (hdrop : s.groupsInUse.drop k = g0 :: gtail) :
    tsSplit s n
      = some (((s.groupsInUse.take k
            ++ [npTake g0 (n - ((s.groupsInUse.map (fun g => (g.length : ℤ))).take k).sum)])
            |>.flatten.reverse),
          ⟨(if 0 < ((s.groupsInUse.map (fun g => (g.length : ℤ))).take (k + 1)).sum - n
              then npDrop g0
                  (n - ((s.groupsInUse.map (fun g => (g.length : ℤ))).take k).sum) :: gtail
              else gtail),
            ((if 0 < ((s.groupsInUse.map (fun g => (g.length : ℤ))).take (k + 1)).sum - n
              then (cumSums (s.groupsInUse.map (fun g => (g.length : ℤ)))).drop k
              else ((cumSums (s.groupsInUse.map (fun g => (g.length : ℤ)))).drop k).drop 1)
              |>.map (fun c => c - n))⟩) := by
  set G := s.groupsInUse with hG
  set lens := G.map (fun g => (g.length : ℤ)) with hlens
  have hCk : (cumSums lens)[k]? = some ((lens.take (k + 1)).sum) := by
    have := cumFrom_getElem? 0 lens k hklen
    simpa [cumSums] using this
  unfold tsSplit
  rw [hkdef, hC]
  simp only [hCk]
  by_cases hk0 : k = 0
  · have hG0 : G = g0 :: gtail := by
      rw [← hdrop, hk0, List.drop_zero]
    rw [if_pos hk0, hk0]
    simp only [List.take_zero, List.sum_nil, sub_zero, List.drop_zero, List.nil_append]
    rw [← hG, hG0]
    split_ifs <;> rfl
  · rw [if_neg hk0]
    have hkm : k - 1 + 1 = k := by omega
    have hCkm : (cumSums lens)[k - 1]? = some ((lens.take k).sum) := by
      have h' := cumFrom_getElem? 0 lens (k - 1) (by omega)
      rw [hkm] at h'
      simpa [cumSums] using h'
    rw [hCkm]
    simp only
    rw [← hG, hdrop]
    split_ifs <;> rfl

lemma cumFrom_head_shift (a b x y : ℤ) (t : List ℤ) (h : a + x = b + y) :
    cumFrom a (x :: t) = cumFrom b (y :: t) := by
  show (a + x) :: cumFrom (a + x) t = (b + y) :: cumFrom (b + y) t
  rw [h]

lemma tsSplit_step (timeOf : ℕ → ℤ) (s : TSState) (n : ℤ) (hInv : TSInv timeOf s)
    (h1 : 1 ≤ n) (h2 : n < (s.groupsInUse.flatten.length : ℤ)) :
    ∃ tgt s2, tsSplit s n = some (tgt, s2)
      ∧ (tgt.length : ℤ) = n
      ∧ s.groupsInUse.flatten = tgt.reverse ++ s2.groupsInUse.flatten
      ∧ TSInv timeOf s2
      ∧ List.Pairwise (fun a b => timeOf a ≤ timeOf b) tgt
      ∧ (∀ a ∈ s2.groupsInUse.flatten, ∀ b ∈ tgt, timeOf a ≤ timeOf b) := by
  obtain ⟨hC, hnd, hne, hpair, hhom⟩ := hInv
  set G := s.groupsInUse with hG
  set lens := G.map (fun g => (g.length : ℤ)) with hlens
  have hlenG : lens.length = G.length := by rw [hlens, List.length_map]
  have htot : lens.sum = (G.flatten.length : ℤ) := (flatten_length_cast G).symm
  have hGne : G ≠ [] := by
    intro hnil
    rw [hnil] at h2
    simp at h2
    omega
  have hlensne : lens ≠ [] := by
    intro hnil
    rw [hlens] at hnil
    exact hGne (List.map_eq_nil_iff.mp hnil)
  have hex : ∃ c ∈ cumSums lens, n ≤ c := by
    refine ⟨lens.sum, ?_, by omega⟩
    have := cumFrom_last_mem 0 lens hlensne
    simpa [cumSums] using this
  have hkdef : npArgmaxGe n s.cumsumInUse = findFirstGe n (cumSums lens) := by
    rw [hC, npArgmaxGe, if_pos ?any]
    case any =>
      rw [List.any_eq_true]
      obtain ⟨c, hc, hnc⟩ := hex
      exact ⟨c, hc, by simpa using hnc⟩
  set k := findFirstGe n (cumSums lens) with hk
  obtain ⟨hklt, hkpre, hkge⟩ := findFirstGe_spec n (cumSums lens) hex
  have hklen : k < lens.length := by
    have : (cumSums lens).length = lens.length := cumFrom_length 0 lens
    omega
  have hkG : k < G.length := by omega
  obtain ⟨g0, gtail, hdrop⟩ : ∃ g0 gtail, G.drop k = g0 :: gtail := by
    cases hd : G.drop k with
    | nil =>
      exfalso
      have := List.length_drop k G
      rw [hd] at this
      simp at this
      omega
    | cons a b => exact ⟨a, b, rfl⟩
  have hCk : (cumSums lens)[k]? = some ((lens.take (k + 1)).sum) := by
    have := cumFrom_getElem? 0 lens k hklen
    simpa [cumSums] using this
  have hck_ge : n ≤ (lens.take (k + 1)).sum := hkge _ hCk
  have hpk_lt : (lens.take k).sum < n := by
    rcases Nat.eq_zero_or_pos k with hk0 | hk0
    · rw [hk0]
      simpa using h1
    · have hk0lt : k - 1 < lens.length := by omega
      have hCkm : (cumSums lens)[k - 1]? = some ((lens.take (k - 1 + 1)).sum) := by
        have := cumFrom_getElem? 0 lens (k - 1) hk0lt
        simpa [cumSums] using this
      have := hkpre (k - 1) (by omega) _ hCkm
      rw [show k - 1 + 1 = k by omega] at this
      omega
  have hg0get : G[k]? = some g0 := by
    have := List.getElem?_drop G k 0
    rw [hdrop] at this
    simpa using this.symm
  have hlensk : lens[k]? = some ((g0.length : ℤ)) := by
    rw [hlens, List.getElem?_map, hg0get]
    rfl
  have hck_eq : (lens.take (k + 1)).sum = (lens.take k).sum + (g0.length : ℤ) := by
    rw [List.take_succ, hlensk, List.sum_append]
    rfl
  set pk := (lens.take k).sum with hpk
  set nRes := n - pk with hnRes
  have hnRes1 : 1 ≤ nRes := by omega
  have hnRes_le : nRes ≤ (g0.length : ℤ) := by omega
  have hnResNat : (nRes.toNat : ℤ) = nRes := Int.toNat_of_nonneg (by omega)
  have hnResNat_le : nRes.toNat ≤ g0.length := by omega
  have heq := tsSplit_unfold_eq timeOf s n hC h1 h2 k g0 gtail hkdef hklen hdrop
  rw [← hG, ← hlens, ← hpk, ← hnRes] at heq
  have hnpTake : npTake g0 nRes = g0.take nRes.toNat := by
    rw [npTake, if_pos (by omega)]
  have hnpDrop : npDrop g0 nRes = g0.drop nRes.toNat := by
    rw [npDrop, if_pos (by omega)]
  rw [hnpTake, hnpDrop] at heq
  set A := G.take k with hA
  have hGsplit : G = A ++ g0 :: gtail := by
    rw [hA, ← hdrop, List.take_append_drop]
  have hlensA : (A.map (fun g => (g.length : ℤ))).sum = pk := by
    rw [hA, hpk, hlens, List.map_take]
  have hflatA : ((A.flatten.length : ℕ) : ℤ) = pk := by
    rw [flatten_length_cast A, hlensA]
  set tgtRaw := (A ++ [g0.take nRes.toNat]).flatten with htgtRaw
  have htgtRaw2 : tgtRaw = A.flatten ++ g0.take nRes.toNat := by
    rw [htgtRaw, List.flatten_append, List.flatten_cons, List.flatten_nil, List.append_nil]
  have hlen_tgtRaw : (tgtRaw.length : ℤ) = n := by
    rw [htgtRaw2, List.length_append, List.length_take, Nat.min_eq_left hnResNat_le]
    push_cast
    rw [hflatA, hnResNat]
    omega
  have hpairApp := List.pairwise_append.mp (hGsplit ▸ hpair)
  obtain ⟨hpairA, hpairRest, hcrossA⟩ := hpairApp
  rw [List.pairwise_cons] at hpairRest
  obtain ⟨hHeadTail, hpairTail⟩ := hpairRest
  have hhomA : ∀ g ∈ A, ∀ a ∈ g, ∀ b ∈ g, timeOf a = timeOf b := by
    intro g hg
    exact hhom g (by rw [hGsplit]; exact List.mem_append_left _ hg)
  have hhom0 : ∀ a ∈ g0, ∀ b ∈ g0, timeOf a = timeOf b := by
    exact hhom g0 (by rw [hGsplit]; exact List.mem_append_right _ (List.mem_cons_self _ _))
  have hhomTail : ∀ g ∈ gtail, ∀ a ∈ g, ∀ b ∈ g, timeOf a = timeOf b := by
    intro g hg
    exact hhom g (by rw [hGsplit]; exact List.mem_append_right _ (List.mem_cons_of_mem _ hg))
  have hneTail : ∀ g ∈ gtail, g ≠ [] := by
    intro g hg
    exact hne g (by rw [hGsplit]; exact List.mem_append_right _ (List.mem_cons_of_mem _ hg))
  have hsortRaw : tgtRaw.Pairwise (fun a b => timeOf b ≤ timeOf a) := by
    rw [htgtRaw, List.pairwise_flatten]
    constructor
    · intro l hl
      rcases List.mem_append.mp hl with hl | hl
      · exact homog_pairwise_le timeOf l (hhomA l hl)
      · rw [List.mem_singleton] at hl
        subst hl
        exact homog_pairwise_le timeOf _
          (fun a ha b hb => hhom0 a (List.mem_of_mem_take ha) b (List.mem_of_mem_take hb))
    · rw [List.pairwise_append]
      refine ⟨hpairA.imp ?_, List.pairwise_singleton _ _, ?_⟩
      · intro g h hgh a ha b hb
        exact le_of_lt (hgh a ha b hb)
      · intro ga hga gb hgb x hx y hy
        rw [List.mem_singleton] at hgb
        subst hgb
        exact le_of_lt (hcrossA ga hga g0 (List.mem_cons_self _ _) x hx y (List.mem_of_mem_take hy))
  have hsort : List.Pairwise (fun a b => timeOf a ≤ timeOf b) tgtRaw.reverse := by
    rw [List.pairwise_reverse]
    exact hsortRaw
  have hcross0 : ∀ a, (a ∈ g0 ∨ a ∈ gtail.flatten) → ∀ b ∈ tgtRaw, timeOf a ≤ timeOf b := by
    intro a ha b hb
    rw [htgtRaw2, List.mem_append] at hb
    rcases ha with ha | ha
    · rcases hb with hb | hb
      · obtain ⟨gb, hgb, hbin⟩ := List.mem_flatten.mp hb
        exact le_of_lt (hcrossA gb hgb g0 (List.mem_cons_self _ _) b hbin a ha)
      · exact le_of_eq (hhom0 a ha b (List.mem_of_mem_take hb))
    · obtain ⟨ga, hga, hain⟩ := List.mem_flatten.mp ha
      rcases hb with hb | hb
      · obtain ⟨gb, hgb, hbin⟩ := List.mem_flatten.mp hb
        exact le_of_lt (hcrossA gb hgb ga (List.mem_cons_of_mem _ hga) b hbin a hain)
      · exact le_of_lt (hHeadTail ga hga b (List.mem_of_mem_take hb) a hain)
  have hCdrop : (cumSums lens).drop k = cumFrom pk (lens.drop k) := by
    conv_lhs => rw [cumSums, ← List.take_append_drop k lens, cumFrom_append]
    rw [List.drop_append_of_le_length (by rw [cumFrom_length, List.length_take]; omega)]
    have hdropnil : List.drop k (cumFrom 0 (lens.take k)) = [] := by
      apply List.drop_eq_nil_of_le
      rw [cumFrom_length, List.length_take]
      omega
    rw [hdropnil, List.nil_append, zero_add, ← hpk]
  have hlensdrop : lens.drop k = (g0.length : ℤ) :: gtail.map (fun g => (g.length : ℤ)) := by
    rw [hlens, ← List.map_drop, hdrop]
    rfl
  by_cases hcond : 0 < (lens.take (k + 1)).sum - n
  · rw [if_pos hcond, if_pos hcond] at heq
    have hnReslt : nRes < (g0.length : ℤ) := by omega
    refine ⟨tgtRaw.reverse,
      ⟨g0.drop nRes.toNat :: gtail, ((cumSums lens).drop k).map (fun c => c - n)⟩,
      heq, ?_, ?_, ?_, ?_, ?_⟩
    · rw [List.length_reverse]
      exact hlen_tgtRaw
    · rw [List.reverse_reverse]
      simp only [List.flatten_cons]
      rw [htgtRaw2, hGsplit, List.flatten_append, List.flatten_cons]
      conv_lhs => rw [← List.take_append_drop nRes.toNat g0]
      simp only [List.append_assoc]
    · refine ⟨?_, ?_, ?_, ?_, ?_⟩
      · show ((cumSums lens).drop k).map (fun c => c - n)
          = cumSums ((g0.drop nRes.toNat :: gtail).map (fun g => (g.length : ℤ)))
        rw [hCdrop, hlensdrop, cumFrom_map_sub, List.map_cons, cumSums]
        apply cumFrom_head_shift
        rw [List.length_drop]
        push_cast [hnResNat_le]
        omega
      · show ((g0.drop nRes.toNat :: gtail).flatten).Nodup
        have hflat : G.flatten = tgtRaw ++ (g0.drop nRes.toNat :: gtail).flatten := by
          rw [htgtRaw2, hGsplit, List.flatten_append, List.flatten_cons, List.flatten_cons]
          conv_lhs => rw [← List.take_append_drop nRes.toNat g0]
          simp only [List.append_assoc]
        rw [hflat] at hnd
        exact hnd.of_append_right
      · intro g hg
        rcases List.mem_cons.mp hg with rfl | hg
        · intro hnil
          have := congrArg List.length hnil
          rw [List.length_drop] at this
          simp at this
          omega
        · exact hneTail g hg
      · rw [List.pairwise_cons]
        refine ⟨?_, hpairTail⟩
        intro h hh a ha b hb
        exact hHeadTail h hh a (List.mem_of_mem_drop ha) b hb
      · intro g hg
        rcases List.mem_cons.mp hg with rfl | hg
        · intro a ha b hb
          exact hhom0 a (List.mem_of_mem_drop ha) b (List.mem_of_mem_drop hb)
        · exact hhomTail g hg
    · exact hsort
    · intro a ha b hb
      rw [List.flatten_cons, List.mem_append] at ha
      rw [List.mem_reverse] at hb
      rcases ha with ha | ha
      · exact hcross0 a (Or.inl (List.mem_of_mem_drop ha)) b hb
      · exact hcross0 a (Or.inr ha) b hb
  · rw [if_neg hcond, if_neg hcond] at heq
    have hnRes_eq : nRes = (g0.length : ℤ) := by omega
    have htakeAll : g0.take nRes.toNat = g0 := by
      apply List.take_of_length_le
      omega
    refine ⟨tgtRaw.reverse,
      ⟨gtail, (((cumSums lens).drop k).drop 1).map (fun c => c - n)⟩,
      heq, ?_, ?_, ?_, ?_, ?_⟩
    · rw [List.length_reverse]
      exact hlen_tgtRaw
    · rw [List.reverse_reverse]
      rw [htgtRaw2, hGsplit, List.flatten_append, List.flatten_cons, htakeAll]
      simp [List.append_assoc]
    · refine ⟨?_, ?_, ?_, hpairTail, hhomTail⟩
      · show (((cumSums lens).drop k).drop 1).map (fun c => c - n)
          = cumSums (gtail.map (fun g => (g.length : ℤ)))
        rw [hCdrop, hlensdrop]
        show ((cumFrom pk ((g0.length : ℤ) :: gtail.map (fun g => (g.length : ℤ)))).drop 1).map
            (fun c => c - n) = _
        rw [show cumFrom pk ((g0.length : ℤ) :: gtail.map (fun g => (g.length : ℤ)))
            = (pk + (g0.length : ℤ)) :: cumFrom (pk + (g0.length : ℤ))
              (gtail.map (fun g => (g.length : ℤ))) from rfl]
        rw [List.drop_one, List.tail_cons, cumFrom_map_sub, cumSums]
        congr 1
        omega
      · show gtail.flatten.Nodup
        have hflat : G.flatten = tgtRaw ++ gtail.flatten := by
          rw [htgtRaw2, hGsplit, List.flatten_append, List.flatten_cons, htakeAll]
          simp [List.append_assoc]
        rw [hflat] at hnd
        exact hnd.of_append_right
      · exact hneTail
    · exact hsort
    · intro a ha b hb
      rw [List.mem_reverse] at hb
      exact hcross0 a (Or.inr ha) b hb

/-- C5 counterexample: a fitted regression splitter with pool
`[0, 1, 2]` answers `split(5)` with the whole pool and an empty
`remaining_indices`, but the splitter's internal remained pool is NOT
emptied: it still holds all three indices, so the pool does not "become
empty" as claimed (a further `split` would hand out the same rows
again). -/
theorem c5_counterexample :
    splitDS [] [] [] ⟨true, false, 3, 0, 3, false, some [0, 1, 2], none, none, []⟩ 5
        = (.ok ([0, 1, 2], []),
           ⟨true, false, 3, 0, 3, false, some [0, 1, 2], none, none, []⟩)
      ∧ (⟨true, false, 3, 0, 3, false, some [0, 1, 2], none, none, []⟩ : DSState).remained
          = some [0, 1, 2]
      ∧ ([0, 1, 2] : List ℕ) ≠ [] := by
  refine ⟨?_, rfl, by decide⟩
  unfold splitDS
  rw [if_neg (by simp), if_neg (by simp)]
  simp only
  rw [if_pos (by norm_num)]

/-- C5 (amended): for every fitted splitter whose reset guards pass,
calling `split(n)` with `n` at least the current pool size returns the
entire remaining pool as `corresponding_indices` with an empty
`remaining_indices` and raises no error; the splitter state — in
particular its internal remained pool — is left completely unchanged
(it is not emptied). -/
theorem c5_split_full_pool (regShuffled sigma : List ℕ) (poolsShuffled : List (List ℕ))
    (s : DSState) (pool : List ℕ) (nq : ℚ)
    (hpool : s.remained = some pool)
    (hg1 : ¬ (s.isRegression = true ∧ s.remained = none))
    (hg2 : ¬ (¬ (s.isRegression = true) ∧ s.labelInUse = none))
    (hge : (pool.length : ℚ) ≤ nq) :
    splitDS regShuffled sigma poolsShuffled s nq = (.ok (pool, []), s) := by
  unfold splitDS
  rw [if_neg hg1, if_neg hg2, hpool]
  simp only
  rw [if_pos hge]

/-- Witness for C5 at a classification splitter with pool `[7, 8]`. -/
theorem c5_split_full_pool_witness :
    splitDS [] [] [] ⟨false, false, 2, 2, 2, false, some [7, 8], some [[7], [8]], none, []⟩ 2
      = (.ok ([7, 8], []),
         ⟨false, false, 2, 2, 2, false, some [7, 8], some [[7], [8]], none, []⟩) := by
  exact c5_split_full_pool [] [] []
    ⟨false, false, 2, 2, 2, false, some [7, 8], some [[7], [8]], none, []⟩
    [7, 8] 2 rfl (by simp) (by simp) (by norm_num)

/-- C9: a splitter constructed with a time-series configuration and
fitted on a non-regression dataset always raises the "please call
'reset'" error from `split`, for every requested size and even directly
after `fit`/`reset` completed: `split`'s readiness check for
non-regression tasks inspects `_label_indices_list_in_use`, which the
time-series reset path never assigns (it stays None from
construction). -/
theorem c9_ts_classification_always_not_reset (s : DSState)
    (regPool : List ℕ) (clfPools : List (List ℕ)) (tsData : TSState)
    (regShuffled sigma : List ℕ) (poolsShuffled : List (List ℕ)) (nq : ℚ)
    (hts : s.isTimeSeries = true) (hreg : s.isRegression = false)
    (hlbl : s.labelInUse = none) :
    (splitDS regShuffled sigma poolsShuffled (resetDS regPool clfPools tsData s) nq).1
      = .error .notReset := by
  have hreset : resetDS regPool clfPools tsData s
      = { s with tsInUse := some tsData, remained := some tsData.groupsInUse.flatten } := by
    unfold resetDS
    rw [hts]
    simp
  rw [hreset]
  unfold splitDS
  rw [if_neg (by simp [hreg]), if_pos (by simp [hreg, hlbl])]

/-- Witness for C9: a concrete classification + time-series splitter. -/
theorem c9_ts_classification_always_not_reset_witness :
    (splitDS [] [] []
        (resetDS [] [] ⟨[[1], [0]], [1, 2]⟩
          ⟨false, true, 2, 2, 2, false, none, none, none, [1/2, 1/2]⟩) 1).1
      = .error .notReset := by
  exact c9_ts_classification_always_not_reset
    ⟨false, true, 2, 2, 2, false, none, none, none, [1/2, 1/2]⟩
    [] [] ⟨[[1], [0]], [1, 2]⟩ [] [] [] 1 rfl rfl rfl

lemma npRound_two_thirds : npRound ((2 : ℤ) * ((1 : ℚ)/3)) = 1 := by
  have hq : ((2 : ℤ) : ℚ) * ((1 : ℚ)/3) = 2/3 := by norm_num
  rw [show ((2 : ℤ) * ((1 : ℚ)/3)) = ((2 : ℤ) : ℚ) * ((1 : ℚ)/3) from by norm_num, hq,
    npRound_eq_floor_add_one _ (by norm_num)]
  norm_num

lemma npRound_four_thirds : npRound ((2 : ℤ) * ((2 : ℚ)/3)) = 1 := by
  have hq : ((2 : ℤ) : ℚ) * ((2 : ℚ)/3) = 4/3 := by norm_num
  rw [show ((2 : ℤ) * ((2 : ℚ)/3)) = ((2 : ℤ) : ℚ) * ((2 : ℚ)/3) from by norm_num, hq,
    npRound_eq_floor _ (by norm_num)]
  norm_num

/-- C1 counterexample: fit a classification splitter (`replace=False`,
`shuffle=False`) on labels `[0, 1, 1]` (ratios 1/3 and 2/3, per-label
pools `[[0], [1, 2]]`) and call `split(2)` — a valid request, strictly
below the pool size 3 and not below the 2 unique labels.  The rounded
counts are `[1, 1]` (no adjustment, so the shuffled chosen-index array
is empty), and both labels hit the overlap branch
(`n_sample_per_label >= n_samples_in_use - 1`): nothing is popped, the
call returns `corresponding_indices = [0, 2]` while
`remaining_indices = [0, 1, 2]` — their intersection `{0, 2}` is not
empty even though `replace=False`. -/
theorem c1_counterexample :
    splitClf 2 3 false [1/3, 2/3] [] [] [[0], [1, 2]] 2
        = (.ok ([0, 2], [0, 1, 2]), [[0], [1, 2]])
      ∧ ¬ ([0, 2] : List ℕ).Disjoint [0, 1, 2] := by
  have h0 : clfCounts0 [1/3, 2/3] 2 = [1, 1] := by
    unfold clfCounts0
    rw [List.map_cons, List.map_cons, List.map_nil, npRound_two_thirds, npRound_four_thirds]
    norm_num
  have hcc : clfCounts [1/3, 2/3] [] 2 = .ok [1, 1] := by
    rw [clfCounts, h0]
    rfl
  constructor
  · unfold splitClf
    rw [if_neg (by norm_num), hcc]
    rfl
  · intro h
    exact h (by decide : (0 : ℕ) ∈ [0, 2]) (by decide : (0 : ℕ) ∈ [0, 1, 2])

/-- C1 (amended): for a split request `n` with `1 ≤ n <` current pool
size (`n` being the count after fraction conversion): under the
regression policy the returned target always has length exactly `n` and,
when `replace=False`, is disjoint from the new pool; under the
time-series policy (always `replace=False`) the same holds; under the
classification policy the same holds provided the adjusted per-label
counts `k_i` exist, sum to `n` and satisfy `1 ≤ k_i ≤ (pool_i size) - 2`
for every label — otherwise (some label pool nearly exhausted, or the
count adjustment crashing) the returned set may overlap the remaining
pool, as the code deliberately tolerates (`n_overlap`). -/
theorem c1_split_size_disjoint :
    (∀ (rep : Bool) (shuffled pool : List ℕ) (n : ℤ),
        1 ≤ n → n < (pool.length : ℤ) → pool.Nodup →
        ((splitReg rep shuffled pool n).1.length : ℤ) = n
          ∧ (rep = false →
              (splitReg rep shuffled pool n).1.Disjoint (splitReg rep shuffled pool n).2))
    ∧ (∀ (timeOf : ℕ → ℤ) (s : TSState) (n : ℤ),
        TSInv timeOf s → 1 ≤ n → n < (s.groupsInUse.flatten.length : ℤ) →
        ∃ tgt s2, tsSplit s n = some (tgt, s2)
          ∧ (tgt.length : ℤ) = n
          ∧ tgt.Disjoint s2.groupsInUse.flatten)
    ∧ (∀ (nU nSamples : ℕ) (ratios : List ℚ) (sigma : List ℕ)
        (poolsShuffled pools : List (List ℕ)) (n : ℤ) (counts : List ℤ),
        clfCounts ratios sigma n = .ok counts → counts.sum = n → (nU : ℤ) ≤ n →
        pools.length = counts.length → pools.flatten.Nodup →
        (∀ pk ∈ pools.zip counts, 1 ≤ pk.2 ∧ pk.2 ≤ (pk.1.length : ℤ) - 2) →
        ∃ tgt remain popped,
          splitClf nU nSamples false ratios sigma poolsShuffled pools n
            = (.ok (tgt, remain), popped)
          ∧ (tgt.length : ℤ) = n ∧ tgt.Disjoint remain) := by
  refine ⟨?_, ?_, ?_⟩
  · intro rep shuffled pool n h1 h2 hnd
    have hb := splitReg_basic rep shuffled pool n h1 h2
    constructor
    · rw [hb]
      simp only [List.length_drop]
      omega
    · intro hrep
      subst hrep
      rw [hb]
      simp only [Bool.false_eq_true, if_false]
      have hnd2 : (pool.take (pool.length - n.toNat) ++ pool.drop (pool.length - n.toNat)).Nodup := by
        rw [List.take_append_drop]
        exact hnd
      exact ((List.nodup_append.mp hnd2).2.2).symm
  · intro timeOf s n hInv h1 h2
    obtain ⟨tgt, s2, heq, hlen, hflat, hInv2, -, -⟩ := tsSplit_step timeOf s n hInv h1 h2
    refine ⟨tgt, s2, heq, hlen, ?_⟩
    have hnd := hInv.2.1
    rw [hflat] at hnd
    have hdisj := (List.nodup_append.mp hnd).2.2
    rw [List.disjoint_left] at hdisj ⊢
    intro a ha
    exact hdisj (List.mem_reverse.mpr ha)
  · intro nU nSamples ratios sigma poolsShuffled pools n counts hok hsum hg hlen hfn hbound
    obtain ⟨tgt, remain, popped, heq, hl, hd, -⟩ :=
      splitClf_normal nU nSamples ratios sigma poolsShuffled pools n counts
        hok hsum hg hlen hfn hbound
    exact ⟨tgt, remain, popped, heq, hl, hd⟩

lemma npRound_two : npRound ((4 : ℤ) * ((1 : ℚ)/2)) = 2 := by
  rw [show ((4 : ℤ) * ((1 : ℚ)/2) : ℚ) = 2 from by norm_num,
    npRound_eq_floor _ (by norm_num)]
  norm_num

/-- Witness for C1: a regression pool of 4 rows with `n = 2`, a
three-group time-series state with `n = 2`, and a two-label
classification state with `n = 4`. -/
theorem c1_split_size_disjoint_witness :
    (((splitReg false [] [0, 1, 2, 3] 2).1.length : ℤ) = 2
        ∧ (false = false →
            (splitReg false [] [0, 1, 2, 3] 2).1.Disjoint (splitReg false [] [0, 1, 2, 3] 2).2))
      ∧ (∃ tgt s2, tsSplit ⟨[[2], [1], [0]], [1, 2, 3]⟩ 2 = some (tgt, s2)
          ∧ (tgt.length : ℤ) = 2 ∧ tgt.Disjoint s2.groupsInUse.flatten)
      ∧ (∃ tgt remain popped,
          splitClf 2 8 false [1/2, 1/2] [0, 1] [] [[0, 1, 2, 3], [4, 5, 6, 7]] 4
            = (.ok (tgt, remain), popped)
          ∧ (tgt.length : ℤ) = 4 ∧ tgt.Disjoint remain) := by
  have h0 : clfCounts0 [1/2, 1/2] 4 = [2, 2] := by
    unfold clfCounts0
    rw [List.map_cons, List.map_cons, List.map_nil, npRound_two]
    norm_num
  have hok : clfCounts [1/2, 1/2] [0, 1] 4 = .ok [2, 2] := by
    rw [clfCounts, h0]
    rfl
  obtain ⟨hreg, hts, hclf⟩ := c1_split_size_disjoint
  exact ⟨hreg false [] [0, 1, 2, 3] 2 (by decide) (by decide) (by decide),
    hts (fun r => (r : ℤ)) ⟨[[2], [1], [0]], [1, 2, 3]⟩ 2
      ⟨by decide, by decide, by decide, by decide, by decide⟩ (by decide) (by decide),
    hclf 2 8 [1/2, 1/2] [0, 1] [] [[0, 1, 2, 3], [4, 5, 6, 7]] 4 [2, 2] hok
      (by decide) (by decide) (by decide) (by decide) (by decide)⟩

lemma flatten_map_reverse_perm (L : List (List α)) :
    ((L.map List.reverse).flatten).Perm L.flatten := by
  induction L with
  | nil => simp
  | cons t l ih =>
    simp only [List.map_cons, List.flatten_cons]
    exact (t.reverse_perm).append ih

lemma validRun_props (timeOf : ℕ → ℤ) (s : TSState) (ns : List ℤ)
    (tgts : List (List ℕ)) (sEnd : TSState)
    (hrun : ValidRun s ns tgts sEnd) (hInv : TSInv timeOf s) :
    TSInv timeOf sEnd
      ∧ s.groupsInUse.flatten
          = (tgts.map List.reverse).flatten ++ sEnd.groupsInUse.flatten
      ∧ List.Pairwise (fun a b => timeOf a ≤ timeOf b) (tgts.reverse.flatten)
      ∧ (∀ a ∈ sEnd.groupsInUse.flatten, ∀ b ∈ tgts.flatten, timeOf a ≤ timeOf b) := by
  induction hrun with
  | nil s => exact ⟨hInv, by simp, by simp, by simp⟩
  | cons s n ns tgt tgts s2 sEnd h1 h2 hts hrun ih =>
    obtain ⟨tgt0, s20, heq0, hlen0, hflat0, hInv0, hsort0, hcross0⟩ :=
      tsSplit_step timeOf s n hInv h1 h2
    rw [hts] at heq0
    have hpair0 := Option.some.inj heq0
    have htgt0 : tgt0 = tgt := (congrArg Prod.fst hpair0).symm
    have hs20 : s20 = s2 := (congrArg Prod.snd hpair0).symm
    rw [htgt0, hs20] at hflat0
    rw [hs20] at hInv0 hcross0
    rw [htgt0] at hsort0 hcross0
    obtain ⟨ihInv, ihflat, ihsort, ihcross⟩ := ih hInv0
    have hmem2 : ∀ a ∈ tgts.flatten, a ∈ s2.groupsInUse.flatten := by
      intro a ha
      rw [ihflat, List.mem_append]
      left
      obtain ⟨l, hl, hal⟩ := List.mem_flatten.mp ha
      exact List.mem_flatten.mpr ⟨l.reverse, List.mem_map_of_mem _ hl, List.mem_reverse.mpr hal⟩
    refine ⟨ihInv, ?_, ?_, ?_⟩
    · rw [List.map_cons, List.flatten_cons, List.append_assoc, ← ihflat, ← hflat0]
    · rw [List.reverse_cons, List.flatten_append, List.flatten_cons, List.flatten_nil,
        List.append_nil, List.pairwise_append]
      refine ⟨ihsort, hsort0, ?_⟩
      intro a ha b hb
      have ha2 : a ∈ tgts.flatten := by
        obtain ⟨l, hl, hal⟩ := List.mem_flatten.mp ha
        exact List.mem_flatten.mpr ⟨l, List.mem_reverse.mp hl, hal⟩
      exact hcross0 a (hmem2 a ha2) b hb
    · intro a ha b hb
      rw [List.flatten_cons, List.mem_append] at hb
      rcases hb with hb | hb
      · have ha2 : a ∈ s2.groupsInUse.flatten := by
          rw [ihflat, List.mem_append]
          right
          exact ha
        exact hcross0 a ha2 b hb
      · exact ihcross a ha b hb

/-- C4 counterexample: a time-series splitter over four rows with
distinct times (row r has time r + 1; pools in reverse chronological
order `[[3], [2], [1], [0]]`), with two valid calls `split(2)` then
`split(1)`.  The returned sets are `[2, 3]` and `[1]`; concatenating
them in call order and reversing gives `[1, 3, 2]`, whose time sequence
2, 4, 3 is not ascending — the claimed reversal does not restore the
time-ascending order (the true restoration concatenates the returned
sets in reverse call order). -/
theorem c4_counterexample :
    tsSplit ⟨[[3], [2], [1], [0]], [1, 2, 3, 4]⟩ 2
        = some ([2, 3], ⟨[[1], [0]], [1, 2]⟩)
      ∧ tsSplit ⟨[[1], [0]], [1, 2]⟩ 1 = some ([1], ⟨[[0]], [1]⟩)
      ∧ ([2, 3] ++ [1] : List ℕ).reverse = [1, 3, 2]
      ∧ ¬ List.Pairwise (fun a b : ℕ => ((a : ℤ) + 1) ≤ ((b : ℤ) + 1)) [1, 3, 2] := by
  exact ⟨by decide, by decide, by decide, by decide⟩

/-- C4 (amended): for a time-series splitter and any sequence of split
calls each with a valid size (`1 ≤ n <` current pool size), every drawn
row of an earlier call has time at least that of every row drawn later,
each returned set is ascending in time — hence concatenating the
returned sets in REVERSE call order (not reversing the concatenation,
as claimed) lists the drawn rows in ascending time order — and no row
index appears in more than one returned set. -/
theorem c4_ts_ordering (timeOf : ℕ → ℤ) (s : TSState) (ns : List ℤ)
    (tgts : List (List ℕ)) (sEnd : TSState)
    (hInv : TSInv timeOf s) (hrun : ValidRun s ns tgts sEnd) :
    List.Pairwise (fun a b => timeOf a ≤ timeOf b) (tgts.reverse.flatten)
      ∧ tgts.flatten.Nodup := by
  obtain ⟨-, hflat, hsort, -⟩ := validRun_props timeOf s ns tgts sEnd hrun hInv
  refine ⟨hsort, ?_⟩
  have hnd := hInv.2.1
  rw [hflat] at hnd
  have := hnd.of_append_left
  exact ((flatten_map_reverse_perm tgts).nodup_iff).mp this

/-- Witness for C4: one valid call `split(2)` on a three-row
time-series state. -/
theorem c4_ts_ordering_witness :
    List.Pairwise (fun a b : ℕ => (a : ℤ) ≤ (b : ℤ)) (([[1, 2]] : List (List ℕ)).reverse.flatten)
      ∧ ([[1, 2]] : List (List ℕ)).flatten.Nodup := by
  exact c4_ts_ordering (fun r => (r : ℤ)) ⟨[[2], [1], [0]], [1, 2, 3]⟩ [2] [[1, 2]]
    ⟨[[0]], [1]⟩
    ⟨by decide, by decide, by decide, by decide, by decide⟩
    (ValidRun.cons _ 2 [] [1, 2] [] ⟨[[0]], [1]⟩ ⟨[[0]], [1]⟩
      (by decide) (by decide) (by decide) (ValidRun.nil _))
